import Mathlib

/-!
# Mirror-registry configuration synthesis

A shallow embedding of `pkg/registries/registries.go`: the host-name
normaliser (`extractHostname`, `extractMirrorURL`), the mirror-set builder
(`newMirror`, `newMirrorSet`, `NewRegistryConfig`), the merger
(`mergeMirrors`, `mergeMirrorSets`, `sortMirrorSets`) and the serialiser
(`generateConfig`).

Go strings are Lean `String`s; Go's `<` on strings compares bytes, which on
UTF-8 text is the order of the code points (`stringLess`, which is `<` on `String`).
A Go `map[string]V` is an association list with one entry per key, and the
order in which `range` visits it, which Go leaves unspecified, is a parameter
(`RangeOrder`).
-/

namespace Registries

/-! ## Library functions the package calls -/

/-- The separator of repo name, namespaces and image name: `imagePathSeparator = "/"`. -/
def imagePathSeparator : Char := '/'

/-- Go's `strings.Split(s, imagePathSeparator)`: the pieces of `s` between the
separators, one more than there are separators (so `[""]` for the empty string). -/
def stringsSplit (s : String) : List String :=
  (s.data.splitOn imagePathSeparator).map String.mk

/-- Go's `strings.Join(parts, imagePathSeparator)`. -/
def stringsJoin (parts : List String) : String :=
  String.mk (List.intercalate [imagePathSeparator] (parts.map String.data))

/-- Lookup in a Go map, `v, ok := m[k]`: `none` when the key is absent. -/
def mapGet {V : Type} (m : List (String × V)) (k : String) : Option V :=
  match m with
  | [] => none
  | (k0, v) :: rest => if k0 = k then some v else mapGet rest k

/-- Assignment to a Go map, `m[k] = v`: the entry of `k` is replaced when there is
one, and a new entry is added otherwise. -/
def mapSet {V : Type} (m : List (String × V)) (k : String) (v : V) : List (String × V) :=
  if k ∈ m.map Prod.fst then
    m.map (fun p => if p.1 = k then (k, v) else p)
  else
    m ++ [(k, v)]

/-- The values held by a Go map, in the order the entries were first added. -/
def mapValues {V : Type} (m : List (String × V)) : List V :=
  m.map Prod.snd

/-- The comparison of two character sequences in lexicographic order, first
difference decides, a proper initial piece is smaller. -/
def charsLess : List Char → List Char → Bool
  | _, [] => false
  | [], _ :: _ => true
  | a :: as, b :: bs =>
    if a < b then true else if b < a then false else charsLess as bs

/-- Go's `a < b` on strings. -/
def stringLess (a b : String) : Bool :=
  charsLess a.data b.data

/-- Go's `sort.Slice(xs, less)`, as the insertion sort Go uses on short slices:
the result is a rearrangement of `xs` in which no element is `less` than one
before it. -/
def sortSlice {α : Type} (less : α → α → Bool) (xs : List α) : List α :=
  xs.insertionSort (fun a b => less b a = false)

/-! ## Types -/

/-- The type `config.MirrorSourcePolicy` of `github.com/openshift/api/config/v1`,
a string type. -/
abbrev MirrorSourcePolicy := String

/-- The constant `config.AllowContactingSource`. -/
def AllowContactingSource : MirrorSourcePolicy := "AllowContactingSource"

/-- The constant `config.NeverContactSource`. -/
def NeverContactSource : MirrorSourcePolicy := "NeverContactSource"

/-- One entry of `ImageDigestMirrorSetSpec.ImageDigestMirrors`
(`config.ImageDigestMirrors`): the fields the package reads. `config.ImageMirror`
is a string type. -/
structure ImageDigestMirrors where
  Source : String
  Mirrors : List String
  MirrorSourcePolicy : MirrorSourcePolicy
  deriving DecidableEq, Repr

/-- The field `Spec` of `config.ImageDigestMirrorSet`. -/
structure ImageDigestMirrorSetSpec where
  ImageDigestMirrors : List ImageDigestMirrors
  deriving DecidableEq, Repr

/-- The policy object `config.ImageDigestMirrorSet`. -/
structure ImageDigestMirrorSet where
  Spec : ImageDigestMirrorSetSpec
  deriving DecidableEq, Repr

/-- One entry of `ImageTagMirrorSetSpec.ImageTagMirrors` (`config.ImageTagMirrors`). -/
structure ImageTagMirrors where
  Source : String
  Mirrors : List String
  MirrorSourcePolicy : MirrorSourcePolicy
  deriving DecidableEq, Repr

/-- The field `Spec` of `config.ImageTagMirrorSet`. -/
structure ImageTagMirrorSetSpec where
  ImageTagMirrors : List ImageTagMirrors
  deriving DecidableEq, Repr

/-- The policy object `config.ImageTagMirrorSet`. -/
structure ImageTagMirrorSet where
  Spec : ImageTagMirrorSetSpec
  deriving DecidableEq, Repr

/-- A mirrored image repo entry in a registry configuration file. -/
structure mirror where
  host : String
  resolveTags : Bool
  deriving DecidableEq, Repr

/-- The mirror registry information for a single source image repo. -/
structure mirrorSet where
  source : String
  mirrors : List mirror
  mirrorSourcePolicy : MirrorSourcePolicy
  deriving DecidableEq, Repr

/-- The order in which `range` visits the values of a map. Go leaves it
unspecified: any rearrangement of the values may come out. -/
structure RangeOrder where
  mirrors : List mirror → List mirror
  mirrorSets : List mirrorSet → List mirrorSet
  mirrors_perm : ∀ l, (mirrors l).Perm l
  mirrorSets_perm : ∀ l, (mirrorSets l).Perm l

/-- The order in which the entries were added to the map, one of the orders
`range` may take. -/
def RangeOrder.insertion : RangeOrder where
  mirrors := fun l => l
  mirrorSets := fun l => l
  mirrors_perm := fun l => List.Perm.refl l
  mirrorSets_perm := fun l => List.Perm.refl l

/-- As `range` may also go: last added entry first. -/
def RangeOrder.reversed : RangeOrder where
  mirrors := fun l => l.reverse
  mirrorSets := fun l => l.reverse
  mirrors_perm := fun l => List.reverse_perm l
  mirrorSets_perm := fun l => List.reverse_perm l

/-! ## Hostname and URL normaliser -/

/-- `extractHostname`: the initial host repo of a full image location,
`parts[0]` of the split. -/
def extractHostname (fullImage : String) : String :=
  let parts := stringsSplit fullImage
  parts.headD ""

/-- The loop of `extractMirrorURL`, `for i := 0; i < len(sourceParts) && i <
len(mirrorParts); i++`, started at index `i` with `uniqueMirrorParts`. The first
argument bounds the iterations left; `len(mirrorParts) - i` of them are enough,
as the loop guard fails at `i = len(mirrorParts)`. -/
def extractMirrorURLLoop (sourceParts mirrorParts : List String) :
    Nat → Nat → List String → List String
  | 0, _, uniqueMirrorParts => uniqueMirrorParts
  | steps + 1, i, uniqueMirrorParts =>
    if i < sourceParts.length ∧ i < mirrorParts.length then
      if sourceParts.getD (sourceParts.length - 1 - i) "" ≠
          mirrorParts.getD (mirrorParts.length - 1 - i) "" then
        uniqueMirrorParts
      else
        extractMirrorURLLoop sourceParts mirrorParts steps (i + 1)
          (uniqueMirrorParts.take (uniqueMirrorParts.length - 1))
    else
      uniqueMirrorParts

/-- `extractMirrorURL`: drops the common suffix from the second repo, returning
only the unique leading URL and namespaces. -/
def extractMirrorURL (source mirror : String) : String :=
  let sourceParts := stringsSplit source
  let mirrorParts := stringsSplit mirror
  let uniqueMirrorParts := mirrorParts
  stringsJoin
    (extractMirrorURLLoop sourceParts mirrorParts mirrorParts.length 0 uniqueMirrorParts)

/-! ## Mirror set builder -/

/-- `newMirror`: a mirror with the host name structure used in the containerd
registry config. -/
def newMirror (sourceImageLocation mirrorImageLocation : String) (resolveTags : Bool) :
    mirror :=
  let mirrorHost :=
    if sourceImageLocation ≠ mirrorImageLocation then
      extractMirrorURL sourceImageLocation mirrorImageLocation
    else
      extractHostname mirrorImageLocation
  { host := mirrorHost, resolveTags := resolveTags }

/-- `newMirrorSet`: one mirror per mirror location, in order, under the host of
the source image. -/
def newMirrorSet (srcImage : String) (mirrorLocations : List String) (resolveTags : Bool)
    (mirrorSourcePolicy : MirrorSourcePolicy) : mirrorSet :=
  let truncatedMirrors :=
    mirrorLocations.foldl (fun acc m => acc ++ [newMirror srcImage m resolveTags]) []
  { source := extractHostname srcImage, mirrors := truncatedMirrors,
    mirrorSourcePolicy := mirrorSourcePolicy }

/-! ## Merger -/

/-- The body of the second loop of `mergeMirrors`, over the new mirrors. -/
def mergeMirrorsStep (uniqueMirrors : List (String × mirror)) (m : mirror) :
    List (String × mirror) :=
  match mapGet uniqueMirrors m.host with
  | some existingM =>
    if !existingM.resolveTags && m.resolveTags then mapSet uniqueMirrors m.host m
    else uniqueMirrors
  | none => mapSet uniqueMirrors m.host m

/-- The map `uniqueMirrors` of `mergeMirrors` after its two loops: the existing
mirrors are put in a map keyed by host (a later one replaces an earlier one of
the same host), then each new mirror is added when its host is absent and
replaces the entry of its host when that entry does not resolve tags and the new
mirror does. -/
def uniqueMirrors (existingMirrors newMirrors : List mirror) : List (String × mirror) :=
  let uniqueMirrors : List (String × mirror) :=
    existingMirrors.foldl (fun u m => mapSet u m.host m) []
  newMirrors.foldl mergeMirrorsStep uniqueMirrors

/-- `mergeMirrors`: consolidates duplicate mirrors (by host); the result is the
values of the map `uniqueMirrors` as `range` yields them. -/
def mergeMirrors (ro : RangeOrder) (existingMirrors newMirrors : List mirror) :
    List mirror :=
  ro.mirrors (mapValues (uniqueMirrors existingMirrors newMirrors))

/-- `sortMirrorSets`: sorts the mirrors of each set by host, then the sets by
source. -/
def sortMirrorSets (mirrorSets : List mirrorSet) : List mirrorSet :=
  let mirrorSets := mirrorSets.map (fun ms =>
    { ms with mirrors := sortSlice (fun a b => stringLess a.host b.host) ms.mirrors })
  sortSlice (fun a b => stringLess a.source b.source) mirrorSets

/-- The loop body of `mergeMirrorSets`: one mirror set put into the map keyed by
source. -/
def mergeMirrorSetsStep (ro : RangeOrder) (uniqueMirrorSets : List (String × mirrorSet))
    (ms : mirrorSet) : List (String × mirrorSet) :=
  match mapGet uniqueMirrorSets ms.source with
  | some existingMS =>
    let existingMS :=
      { existingMS with mirrors := mergeMirrors ro existingMS.mirrors ms.mirrors }
    let existingMS :=
      if existingMS.mirrorSourcePolicy = AllowContactingSource then
        { existingMS with mirrorSourcePolicy := ms.mirrorSourcePolicy }
      else existingMS
    mapSet uniqueMirrorSets ms.source existingMS
  | none => mapSet uniqueMirrorSets ms.source ms

/-- The map `uniqueMirrorSets` of `mergeMirrorSets` after its loop. -/
def uniqueMirrorSets (ro : RangeOrder) (baseMirrorSets : List mirrorSet) :
    List (String × mirrorSet) :=
  baseMirrorSets.foldl (mergeMirrorSetsStep ro) []

/-- `mergeMirrorSets`: consolidates the sets that share a source and sorts the
result. -/
def mergeMirrorSets (ro : RangeOrder) (baseMirrorSets : List mirrorSet) : List mirrorSet :=
  let result := ro.mirrorSets (mapValues (uniqueMirrorSets ro baseMirrorSets))
  sortMirrorSets result

/-- The slice `allMirrorSets` that `NewRegistryConfig` builds: one set per digest
entry (`resolveTags = false`), then one per tag entry (`resolveTags = true`). -/
def allMirrorSets (idmsItems : List ImageDigestMirrorSet)
    (idtsItems : List ImageTagMirrorSet) : List mirrorSet :=
  let all : List mirrorSet := []
  let all := idmsItems.foldl (fun all idms =>
    idms.Spec.ImageDigestMirrors.foldl (fun all entry =>
      all ++ [newMirrorSet entry.Source entry.Mirrors false entry.MirrorSourcePolicy]) all) all
  idtsItems.foldl (fun all itms =>
    itms.Spec.ImageTagMirrors.foldl (fun all entry =>
      all ++ [newMirrorSet entry.Source entry.Mirrors true entry.MirrorSourcePolicy]) all) all

/-- `NewRegistryConfig`: the field `sourceConfigs` of the registry config built
from the given mirror set policies. -/
def NewRegistryConfig (ro : RangeOrder) (idmsItems : List ImageDigestMirrorSet)
    (idtsItems : List ImageTagMirrorSet) : List mirrorSet :=
  mergeMirrorSets ro (allMirrorSets idmsItems idtsItems)

/-! ## Serialiser -/

/-- `generateConfig`: the containerd registry configuration of one mirror set,
the empty string if it has no mirrors. -/
def generateConfig (ms : mirrorSet) : String :=
  match ms.mirrors with
  | [] => ""
  | first :: _ =>
    let result := ""
    let fallbackServer :=
      if ms.mirrorSourcePolicy = NeverContactSource then first.host else ms.source
    let result := result ++ ("server = \"https://" ++ fallbackServer ++ "\"")
    let result := result ++ "\r\n\r\n"
    ms.mirrors.foldl (fun result m =>
      let result := result ++ ("[host.\"https://" ++ m.host ++ "\"]")
      let result := result ++ "\r\n"
      let hostCapabilities :=
        if m.resolveTags then "  capabilities = [\"pull\", \"resolve\"]"
        else "  capabilities = [\"pull\"]"
      let result := result ++ hostCapabilities
      result ++ "\r\n") result

/-! ## Predicates and values the proofs speak of -/

/-- A map of mirrors keyed by host: one entry per key, each under its own host. -/
def mirrorsMapOk (u : List (String × mirror)) : Prop :=
  (u.map Prod.fst).Nodup ∧ ∀ p ∈ u, p.2.host = p.1

/-- Every entry of the map under host `h` resolves tags, and there is one. -/
def resolvesAt (h : String) (u : List (String × mirror)) : Prop :=
  (∃ q ∈ u, q.1 = h) ∧ ∀ p ∈ u, p.1 = h → p.2.resolveTags = true

/-- A map of mirror sets keyed by source: one entry per key, each under its own
source. -/
def setsMapOk (u : List (String × mirrorSet)) : Prop :=
  (u.map Prod.fst).Nodup ∧ ∀ p ∈ u, p.2.source = p.1

/-- The value `mergeMirrorSets` stores under `ms.source` when it meets `ms`. -/
def mergedSet (ro : RangeOrder) (u : List (String × mirrorSet)) (ms : mirrorSet) :
    mirrorSet :=
  match mapGet u ms.source with
  | some existingMS =>
    let existingMS :=
      { existingMS with mirrors := mergeMirrors ro existingMS.mirrors ms.mirrors }
    if existingMS.mirrorSourcePolicy = AllowContactingSource then
      { existingMS with mirrorSourcePolicy := ms.mirrorSourcePolicy }
    else existingMS
  | none => ms

/-- The policy the merge of the sets of source `s` ends with, read off the input
list: that of the first set of source `s`, in input order, whose policy is not
`AllowContactingSource`, and `AllowContactingSource` when there is none. -/
def firstRestrictingPolicy (l : List mirrorSet) (s : String) : MirrorSourcePolicy :=
  match (l.filter (fun ms => ms.source = s)).find?
      (fun ms => ms.mirrorSourcePolicy ≠ AllowContactingSource) with
  | some ms => ms.mirrorSourcePolicy
  | none => AllowContactingSource

/-! ## The same code with its run-time checks

Go checks every index and slice bound when the program runs and panics when one
is out of range. Here `none` stands for the panic. -/

/-- The index expression `xs[i]`, `i` an `int`: `none` unless `0 ≤ i < len(xs)`. -/
def indexAt {α : Type} (xs : List α) (i : Int) : Option α :=
  if 0 ≤ i ∧ i < xs.length then xs.get? i.toNat else none

/-- The slice expression `xs[:hi]`, `hi` an `int`: `none` unless `0 ≤ hi ≤ len(xs)`
(Go allows `hi` up to the capacity, which is at least the length). -/
def sliceTo {α : Type} (xs : List α) (hi : Int) : Option (List α) :=
  if 0 ≤ hi ∧ hi ≤ xs.length then some (xs.take hi.toNat) else none

/-- The loop of `extractMirrorURL` with the checks of its two index expressions
and of its slice expression. -/
def extractMirrorURLLoopChecked (sourceParts mirrorParts : List String) :
    Nat → Nat → List String → Option (List String)
  | 0, _, uniqueMirrorParts => some uniqueMirrorParts
  | steps + 1, i, uniqueMirrorParts =>
    if i < sourceParts.length ∧ i < mirrorParts.length then
      match indexAt sourceParts ((sourceParts.length : Int) - 1 - (i : Int)),
          indexAt mirrorParts ((mirrorParts.length : Int) - 1 - (i : Int)) with
      | some sourcePart, some mirrorPart =>
        if sourcePart ≠ mirrorPart then
          some uniqueMirrorParts
        else
          match sliceTo uniqueMirrorParts ((uniqueMirrorParts.length : Int) - 1) with
          | some rest =>
            extractMirrorURLLoopChecked sourceParts mirrorParts steps (i + 1) rest
          | none => none
      | _, _ => none
    else
      some uniqueMirrorParts

/-- `extractMirrorURL` with its run-time checks. -/
def extractMirrorURLChecked (source mirror : String) : Option String :=
  let sourceParts := stringsSplit source
  let mirrorParts := stringsSplit mirror
  let uniqueMirrorParts := mirrorParts
  (extractMirrorURLLoopChecked sourceParts mirrorParts mirrorParts.length 0
    uniqueMirrorParts).map stringsJoin

/-- `extractHostname` with the check of `parts[0]`. -/
def extractHostnameChecked (fullImage : String) : Option String :=
  let parts := stringsSplit fullImage
  indexAt parts 0

/-- `generateConfig` with the check of `ms.mirrors[0]`, which is read only under
`NeverContactSource` and after the test `len(ms.mirrors) == 0`. -/
def generateConfigChecked (ms : mirrorSet) : Option String :=
  if ms.mirrors.length = 0 then
    some ""
  else
    let result := ""
    let fallbackServer :=
      if ms.mirrorSourcePolicy = NeverContactSource then
        (indexAt ms.mirrors 0).map (fun m => m.host)
      else some ms.source
    match fallbackServer with
    | none => none
    | some fallbackServer =>
      let result := result ++ ("server = \"https://" ++ fallbackServer ++ "\"")
      let result := result ++ "\r\n\r\n"
      some (ms.mirrors.foldl (fun result m =>
        let result := result ++ ("[host.\"https://" ++ m.host ++ "\"]")
        let result := result ++ "\r\n"
        let hostCapabilities :=
          if m.resolveTags then "  capabilities = [\"pull\", \"resolve\"]"
          else "  capabilities = [\"pull\"]"
        let result := result ++ hostCapabilities
        result ++ "\r\n") result)

end Registries

/-!
# Metrics endpoints

A shallow embedding of `isEndpointsValid`, `getNodeEndpointAddresses` and the
subsets written by `syncMetricsEndpoint`, of `pkg/metrics/metrics.go`. The
Kubernetes objects are records of the fields the function reads; a pointer that
may be `nil` is an `Option`.
-/

namespace Metrics

/-- The type `v1.ObjectReference`: kind and name of the referent. -/
structure ObjectReference where
  Kind : String
  Name : String
  deriving DecidableEq, Repr

/-- The type `v1.EndpointAddress`. -/
structure EndpointAddress where
  IP : String
  Hostname : String
  NodeName : Option String
  TargetRef : Option ObjectReference
  deriving DecidableEq, Repr

/-- The type `v1.EndpointPort`. -/
structure EndpointPort where
  Name : String
  Port : Int
  Protocol : String
  deriving DecidableEq, Repr

/-- The type `v1.EndpointSubset`. -/
structure EndpointSubset where
  Addresses : List EndpointAddress
  Ports : List EndpointPort
  deriving DecidableEq, Repr

/-- The type `v1.Endpoints`. -/
structure Endpoints where
  Subsets : List EndpointSubset
  deriving DecidableEq, Repr

/-- The type `v1.NodeAddress`; `Kind` is its field `Type`. -/
structure NodeAddress where
  Kind : String
  Address : String
  deriving DecidableEq, Repr

/-- The type `v1.NodeStatus`. -/
structure NodeStatus where
  Addresses : List NodeAddress
  deriving DecidableEq, Repr

/-- The type `v1.Node`. -/
structure Node where
  Name : String
  Status : NodeStatus
  deriving DecidableEq, Repr

/-- The type `v1.NodeList`. -/
structure NodeList where
  Items : List Node
  deriving DecidableEq, Repr

/-- The inner loop of `isEndpointsValid`: the value of `nodeFound` after the walk
over the addresses. An address whose `TargetRef` is `nil` or not of kind `Node` is
skipped; the walk stops at the first address that names the node. -/
def nodeFound (nodeName : String) : List EndpointAddress → Bool
  | [] => false
  | address :: rest =>
    match address.TargetRef with
    | none => nodeFound nodeName rest
    | some targetRef =>
      if targetRef.Kind ≠ "Node" then nodeFound nodeName rest
      else if targetRef.Name = nodeName then true
      else nodeFound nodeName rest

/-- The outer loop of `isEndpointsValid`: `false` at the first node that is not
found, `true` after the last node. -/
def allNodesFound (addresses : List EndpointAddress) : List Node → Bool
  | [] => true
  | node :: rest =>
    if !nodeFound node.Name addresses then false else allNodesFound addresses rest

/-- `isEndpointsValid`: whether the Endpoints object has entries for all the nodes. -/
def isEndpointsValid (nodes : NodeList) (endpoints : Endpoints) : Bool :=
  match endpoints.Subsets with
  | [] => false
  | first :: _ =>
    if nodes.Items.length ≠ first.Addresses.length then false
    else allNodesFound first.Addresses nodes.Items

/-- The constant `PortName`, the port name used for Prometheus monitoring. -/
def PortName : String := "metrics"

/-- The constant `Port`, the port number on which windows-exporter is exposed. -/
def Port : Int := 9182

/-- The inner loop of `getNodeEndpointAddresses` for one node, from the addresses
of the node still to visit: the first address of type `InternalIP` with a
non-empty value is appended as an endpoint address that refers to the node, and
the loop breaks; a node without such an address appends nothing. -/
def appendNodeAddress (node : Node) (nodeIPAddress : List EndpointAddress) :
    List NodeAddress → List EndpointAddress
  | [] => nodeIPAddress
  | address :: rest =>
    if address.Kind = "InternalIP" ∧ address.Address ≠ "" then
      nodeIPAddress ++ [{ IP := address.Address, Hostname := "", NodeName := none,
                          TargetRef := some { Kind := "Node", Name := node.Name } }]
    else appendNodeAddress node nodeIPAddress rest

/-- `getNodeEndpointAddresses`: the list of endpoint addresses according to the
given list of nodes (the `nil` slice is the empty list). -/
def getNodeEndpointAddresses (nodes : NodeList) : List EndpointAddress :=
  nodes.Items.foldl (fun nodeIPAddress node =>
    appendNodeAddress node nodeIPAddress node.Status.Addresses) []

/-- The value `subsets` that `syncMetricsEndpoint` builds: no subset when the
address list is `nil`, else the one subset with the addresses and the metrics
port. -/
def syncSubsets (nodeEndpointAdressess : List EndpointAddress) : List EndpointSubset :=
  if nodeEndpointAdressess ≠ [] then
    [{ Addresses := nodeEndpointAdressess,
       Ports := [{ Name := PortName, Port := Port, Protocol := "TCP" }] }]
  else []

/-- The Endpoints object after `syncMetricsEndpoint`: its patch replaces
`/subsets` by the value built from the address list. The call to the API server
is not modelled; this is the object when the patch is applied. -/
def syncMetricsEndpoint (endpoints : Endpoints) (nodeEndpointAdressess : List EndpointAddress) :
    Endpoints :=
  { endpoints with Subsets := syncSubsets nodeEndpointAdressess }

end Metrics



namespace Registries

/-! ## The order on strings -/

theorem charsLess_iff (a b : List Char) : charsLess a b = true ↔ a < b := by
  induction a generalizing b with
  | nil =>
    cases b with
    | nil => simp [charsLess]
    | cons b bs => simp [charsLess, List.nil_lt_cons]
  | cons a as ih =>
    cases b with
    | nil =>
      simp only [charsLess, Bool.false_eq_true, false_iff]
      exact not_lt_of_lt (List.nil_lt_cons a as)
    | cons b bs =>
      simp only [charsLess]
      by_cases h1 : a < b
      · simp only [h1, if_true, true_iff]
        exact List.Lex.rel h1
      · by_cases h2 : b < a
        · simp only [h1, h2, if_false, if_true, Bool.false_eq_true, false_iff]
          exact not_lt_of_lt (List.Lex.rel h2)
        · have hab : a = b := le_antisymm (not_lt.mp h2) (not_lt.mp h1)
          subst hab
          simp only [h1, if_false, ih]
          exact (List.Lex.cons_iff).symm

theorem stringLess_iff (a b : String) : stringLess a b = true ↔ a < b := by
  unfold stringLess
  rw [charsLess_iff]
  exact String.lt_iff_toList_lt.symm

theorem stringLess_eq_false_iff (a b : String) : stringLess a b = false ↔ b ≤ a := by
  rw [← not_lt, ← stringLess_iff]
  simp

/-! ## Sorting -/

theorem sortSlice_perm {α : Type} (less : α → α → Bool) (xs : List α) :
    (sortSlice less xs).Perm xs :=
  List.perm_insertionSort _ xs

theorem sortSlice_pairwise {α : Type} (key : α → String) (xs : List α) :
    (sortSlice (fun a b => stringLess (key a) (key b)) xs).Pairwise
      (fun a b => key a ≤ key b) := by
  haveI : IsTotal α (fun a b => stringLess (key b) (key a) = false) :=
    ⟨fun a b => by
      simp only [stringLess_eq_false_iff]
      exact le_total _ _⟩
  haveI : IsTrans α (fun a b => stringLess (key b) (key a) = false) :=
    ⟨fun a b c => by
      simp only [stringLess_eq_false_iff]
      exact le_trans⟩
  have h := List.sorted_insertionSort (fun a b => stringLess (key b) (key a) = false) xs
  refine List.Pairwise.imp ?_ h
  intro a b hab
  exact (stringLess_eq_false_iff _ _).mp hab

/-! ## Maps -/

theorem mem_mapSet {V : Type} (m : List (String × V)) (k : String) (v : V)
    (p : String × V) :
    p ∈ mapSet m k v ↔ p = (k, v) ∨ (p.1 ≠ k ∧ p ∈ m) := by
  unfold mapSet
  split
  · rename_i hc
    simp only [List.mem_map] at hc
    obtain ⟨q, hq, hqk⟩ := hc
    simp only [List.mem_map]
    constructor
    · rintro ⟨r, hr, rfl⟩
      by_cases h : r.1 = k
      · left; simp [h]
      · right; simp [h, hr]
    · rintro (rfl | ⟨hne, hp⟩)
      · exact ⟨q, hq, by simp [hqk]⟩
      · exact ⟨p, hp, by simp [hne]⟩
  · rename_i hc
    simp only [List.mem_map, not_exists, not_and] at hc
    simp only [List.mem_append, List.mem_singleton]
    constructor
    · rintro (hp | rfl)
      · exact Or.inr ⟨hc p hp, hp⟩
      · exact Or.inl rfl
    · rintro (rfl | ⟨_, hp⟩)
      · exact Or.inr rfl
      · exact Or.inl hp

theorem keys_mapSet {V : Type} (m : List (String × V)) (k : String) (v : V) :
    (mapSet m k v).map Prod.fst =
      if k ∈ m.map Prod.fst then m.map Prod.fst else m.map Prod.fst ++ [k] := by
  unfold mapSet
  by_cases hc : k ∈ m.map Prod.fst
  · simp only [hc, if_true, List.map_map]
    apply List.map_congr_left
    intro q _
    by_cases h : q.1 = k <;> simp [h]
  · simp [hc]

theorem nodup_keys_mapSet {V : Type} (m : List (String × V)) (k : String) (v : V)
    (h : (m.map Prod.fst).Nodup) : ((mapSet m k v).map Prod.fst).Nodup := by
  rw [keys_mapSet]
  split
  · exact h
  · rename_i hk
    exact List.Nodup.append h (List.nodup_singleton k) (by simpa using hk)

theorem mapGet_some {V : Type} (m : List (String × V)) (k : String) (v : V)
    (h : mapGet m k = some v) : (k, v) ∈ m := by
  induction m with
  | nil => simp [mapGet] at h
  | cons p rest ih =>
    obtain ⟨k0, v0⟩ := p
    simp only [mapGet] at h
    split at h
    · rename_i hk
      simp only [Option.some.injEq] at h
      subst hk; subst h
      exact List.mem_cons_self _ _
    · exact List.mem_cons_of_mem _ (ih h)

theorem mapGet_none {V : Type} (m : List (String × V)) (k : String)
    (h : mapGet m k = none) : ∀ p ∈ m, p.1 ≠ k := by
  induction m with
  | nil => simp
  | cons p rest ih =>
    obtain ⟨k0, v0⟩ := p
    simp only [mapGet] at h
    split at h
    · simp at h
    · rename_i hk
      intro q hq
      rcases List.mem_cons.mp hq with rfl | hq
      · exact hk
      · exact ih h q hq

theorem mapSet_key_mem {V : Type} (m : List (String × V)) (k : String) (v : V) :
    (k, v) ∈ mapSet m k v :=
  (mem_mapSet m k v (k, v)).mpr (Or.inl rfl)

theorem mapSet_keeps_keys {V : Type} (m : List (String × V)) (k : String) (v : V)
    (k0 : String) (h : ∃ q ∈ m, q.1 = k0) : ∃ q ∈ mapSet m k v, q.1 = k0 := by
  obtain ⟨q, hq, hk⟩ := h
  by_cases hkk : k0 = k
  · exact ⟨(k, v), mapSet_key_mem m k v, hkk.symm⟩
  · exact ⟨q, (mem_mapSet m k v q).mpr (Or.inr ⟨by rw [hk]; exact hkk, hq⟩), hk⟩

theorem nodup_keys_unique {V : Type} (m : List (String × V)) (h : (m.map Prod.fst).Nodup)
    (k : String) (v w : V) (hv : (k, v) ∈ m) (hw : (k, w) ∈ m) : v = w := by
  induction m with
  | nil => simp at hv
  | cons p rest ih =>
    simp only [List.map_cons, List.nodup_cons, List.mem_map, not_exists, not_and] at h
    rcases List.mem_cons.mp hv with hv | hv <;> rcases List.mem_cons.mp hw with hw | hw
    · have := hv.trans hw.symm
      exact (Prod.mk.inj this).2
    · exact absurd (by rw [← hv]) (h.1 (k, w) hw)
    · exact absurd (by rw [← hw]) (h.1 (k, v) hv)
    · exact ih h.2 hv hw

/-! ## The map of `mergeMirrors` -/

theorem mirrorsMapOk_mapSet (u : List (String × mirror)) (m : mirror)
    (h : mirrorsMapOk u) : mirrorsMapOk (mapSet u m.host m) := by
  refine ⟨nodup_keys_mapSet u m.host m h.1, ?_⟩
  intro p hp
  rcases (mem_mapSet u m.host m p).mp hp with rfl | ⟨_, hp⟩
  · rfl
  · exact h.2 p hp

theorem mergeMirrorsStep_mem (u : List (String × mirror)) (m : mirror)
    (p : String × mirror) (hp : p ∈ mergeMirrorsStep u m) : p ∈ u ∨ p = (m.host, m) := by
  unfold mergeMirrorsStep at hp
  split at hp
  · split at hp
    · rcases (mem_mapSet u m.host m p).mp hp with h | ⟨_, h⟩
      · exact Or.inr h
      · exact Or.inl h
    · exact Or.inl hp
  · rcases (mem_mapSet u m.host m p).mp hp with h | ⟨_, h⟩
    · exact Or.inr h
    · exact Or.inl h

theorem mirrorsMapOk_step (u : List (String × mirror)) (m : mirror)
    (h : mirrorsMapOk u) : mirrorsMapOk (mergeMirrorsStep u m) := by
  unfold mergeMirrorsStep
  split
  · split
    · exact mirrorsMapOk_mapSet u m h
    · exact h
  · exact mirrorsMapOk_mapSet u m h

theorem mergeMirrorsStep_keeps_keys (u : List (String × mirror)) (m : mirror)
    (k0 : String) (h : ∃ q ∈ u, q.1 = k0) : ∃ q ∈ mergeMirrorsStep u m, q.1 = k0 := by
  unfold mergeMirrorsStep
  split
  · split
    · exact mapSet_keeps_keys u m.host m k0 h
    · exact h
  · exact mapSet_keeps_keys u m.host m k0 h

theorem mergeMirrorsStep_has_key (u : List (String × mirror)) (m : mirror) :
    ∃ q ∈ mergeMirrorsStep u m, q.1 = m.host := by
  unfold mergeMirrorsStep
  split
  · rename_i ex hex
    split
    · exact ⟨(m.host, m), mapSet_key_mem u m.host m, rfl⟩
    · exact ⟨(m.host, ex), mapGet_some u m.host ex hex, rfl⟩
  · exact ⟨(m.host, m), mapSet_key_mem u m.host m, rfl⟩

theorem resolvesAt_step (h : String) (u : List (String × mirror)) (m : mirror)
    (hr : resolvesAt h u) : resolvesAt h (mergeMirrorsStep u m) := by
  refine ⟨mergeMirrorsStep_keeps_keys u m h hr.1, ?_⟩
  intro p hp hk
  unfold mergeMirrorsStep at hp
  split at hp
  · rename_i ex hex
    split at hp
    · rename_i hc
      rcases (mem_mapSet u m.host m p).mp hp with rfl | ⟨_, hp⟩
      · have hex2 := hr.2 (m.host, ex) (mapGet_some u m.host ex hex) hk
        simp only at hex2
        simp [hex2] at hc
      · exact hr.2 p hp hk
    · exact hr.2 p hp hk
  · rename_i hnone
    rcases (mem_mapSet u m.host m p).mp hp with rfl | ⟨_, hp⟩
    · obtain ⟨q, hq, hqk⟩ := hr.1
      exact absurd (hqk.trans hk.symm) (mapGet_none u m.host hnone q hq)
    · exact hr.2 p hp hk

theorem resolvesAt_step_new (u : List (String × mirror)) (m : mirror)
    (hu : mirrorsMapOk u) (hm : m.resolveTags = true) :
    resolvesAt m.host (mergeMirrorsStep u m) := by
  refine ⟨mergeMirrorsStep_has_key u m, ?_⟩
  intro p hp hk
  unfold mergeMirrorsStep at hp
  split at hp
  · rename_i ex hex
    split at hp
    · rcases (mem_mapSet u m.host m p).mp hp with rfl | ⟨hne, _⟩
      · exact hm
      · exact absurd hk hne
    · rename_i hc
      have hpe : p.2 = ex := by
        have hp2 : (m.host, p.2) ∈ u := by rw [← hk]; exact hp
        exact nodup_keys_unique u hu.1 m.host p.2 ex hp2 (mapGet_some u m.host ex hex)
      rw [hpe]
      simp only [hm, Bool.and_true, Bool.not_eq_true', Bool.not_eq_false] at hc
      exact hc
  · rcases (mem_mapSet u m.host m p).mp hp with rfl | ⟨hne, _⟩
    · exact hm
    · exact absurd hk hne

theorem resolvesAt_foldl (h : String) (n : List mirror) (u : List (String × mirror))
    (hr : resolvesAt h u) : resolvesAt h (n.foldl mergeMirrorsStep u) := by
  induction n generalizing u with
  | nil => exact hr
  | cons m rest ih => exact ih _ (resolvesAt_step h u m hr)

theorem mirrorsMapOk_foldl (n : List mirror) (u : List (String × mirror))
    (hu : mirrorsMapOk u) : mirrorsMapOk (n.foldl mergeMirrorsStep u) := by
  induction n generalizing u with
  | nil => exact hu
  | cons m rest ih => exact ih _ (mirrorsMapOk_step u m hu)

theorem resolvesAt_foldl_new (n : List mirror) (u : List (String × mirror))
    (hu : mirrorsMapOk u) (x : mirror) (hx : x ∈ n) (hxr : x.resolveTags = true) :
    resolvesAt x.host (n.foldl mergeMirrorsStep u) := by
  induction n generalizing u with
  | nil => simp at hx
  | cons m rest ih =>
    rcases List.mem_cons.mp hx with rfl | hx
    · exact resolvesAt_foldl _ rest _ (resolvesAt_step_new u x hu hxr)
    · exact ih _ (mirrorsMapOk_step u m hu) hx

theorem foldl_step_mem (n : List mirror) (u : List (String × mirror))
    (p : String × mirror) (hp : p ∈ n.foldl mergeMirrorsStep u) :
    p ∈ u ∨ (p.2 ∈ n ∧ p.1 = p.2.host) := by
  induction n generalizing u with
  | nil => exact Or.inl hp
  | cons m rest ih =>
    rcases ih _ hp with h | ⟨h1, h2⟩
    · rcases mergeMirrorsStep_mem u m p h with h | rfl
      · exact Or.inl h
      · exact Or.inr ⟨List.mem_cons_self _ _, rfl⟩
    · exact Or.inr ⟨List.mem_cons_of_mem _ h1, h2⟩

theorem foldl_step_keeps_keys (n : List mirror) (u : List (String × mirror))
    (k0 : String) (h : ∃ q ∈ u, q.1 = k0) : ∃ q ∈ n.foldl mergeMirrorsStep u, q.1 = k0 := by
  induction n generalizing u with
  | nil => exact h
  | cons m rest ih => exact ih _ (mergeMirrorsStep_keeps_keys u m k0 h)

theorem foldl_step_has_key (n : List mirror) (u : List (String × mirror))
    (x : mirror) (hx : x ∈ n) : ∃ q ∈ n.foldl mergeMirrorsStep u, q.1 = x.host := by
  induction n generalizing u with
  | nil => simp at hx
  | cons m rest ih =>
    rcases List.mem_cons.mp hx with rfl | hx
    · exact foldl_step_keeps_keys rest _ _ (mergeMirrorsStep_has_key u x)
    · exact ih _ hx

theorem foldl_set_ok (e : List mirror) (u : List (String × mirror))
    (hu : mirrorsMapOk u) : mirrorsMapOk (e.foldl (fun u m => mapSet u m.host m) u) := by
  induction e generalizing u with
  | nil => exact hu
  | cons m rest ih => exact ih _ (mirrorsMapOk_mapSet u m hu)

theorem foldl_set_mem (e : List mirror) (u : List (String × mirror))
    (p : String × mirror) (hp : p ∈ e.foldl (fun u m => mapSet u m.host m) u) :
    p ∈ u ∨ (p.2 ∈ e ∧ p.1 = p.2.host) := by
  induction e generalizing u with
  | nil => exact Or.inl hp
  | cons m rest ih =>
    rcases ih _ hp with h | ⟨h1, h2⟩
    · rcases (mem_mapSet u m.host m p).mp h with rfl | ⟨_, h⟩
      · exact Or.inr ⟨List.mem_cons_self _ _, rfl⟩
      · exact Or.inl h
    · exact Or.inr ⟨List.mem_cons_of_mem _ h1, h2⟩

theorem foldl_set_keeps_keys (e : List mirror) (u : List (String × mirror))
    (k0 : String) (h : ∃ q ∈ u, q.1 = k0) :
    ∃ q ∈ e.foldl (fun u m => mapSet u m.host m) u, q.1 = k0 := by
  induction e generalizing u with
  | nil => exact h
  | cons m rest ih => exact ih _ (mapSet_keeps_keys u m.host m k0 h)

theorem foldl_set_has_key (e : List mirror) (u : List (String × mirror))
    (x : mirror) (hx : x ∈ e) :
    ∃ q ∈ e.foldl (fun u m => mapSet u m.host m) u, q.1 = x.host := by
  induction e generalizing u with
  | nil => simp at hx
  | cons m rest ih =>
    rcases List.mem_cons.mp hx with rfl | hx
    · exact foldl_set_keeps_keys rest _ _ ⟨(x.host, x), mapSet_key_mem u x.host x, rfl⟩
    · exact ih _ hx

/-! ## `mergeMirrors` -/

theorem uniqueMirrors_ok (e n : List mirror) : mirrorsMapOk (uniqueMirrors e n) := by
  unfold uniqueMirrors
  exact mirrorsMapOk_foldl n _ (foldl_set_ok e [] ⟨by simp, by simp⟩)

theorem mem_mergeMirrors (ro : RangeOrder) (e n : List mirror) (y : mirror) :
    y ∈ mergeMirrors ro e n ↔ (y.host, y) ∈ uniqueMirrors e n := by
  unfold mergeMirrors
  rw [(ro.mirrors_perm _).mem_iff]
  unfold mapValues
  simp only [List.mem_map]
  constructor
  · rintro ⟨p, hp, rfl⟩
    have := (uniqueMirrors_ok e n).2 p hp
    rw [this]
    exact hp
  · intro h
    exact ⟨(y.host, y), h, rfl⟩

theorem mergeMirrors_mem (ro : RangeOrder) (e n : List mirror) (y : mirror)
    (hy : y ∈ mergeMirrors ro e n) : y ∈ e ∨ y ∈ n := by
  rw [mem_mergeMirrors] at hy
  unfold uniqueMirrors at hy
  rcases foldl_step_mem n _ _ hy with h | ⟨h, _⟩
  · rcases foldl_set_mem e [] _ h with h | ⟨h, _⟩
    · simp at h
    · exact Or.inl h
  · exact Or.inr h

theorem mergeMirrors_has_host (ro : RangeOrder) (e n : List mirror) (x : mirror)
    (hx : x ∈ e ∨ x ∈ n) : ∃ y ∈ mergeMirrors ro e n, y.host = x.host := by
  have key : ∃ q ∈ uniqueMirrors e n, q.1 = x.host := by
    unfold uniqueMirrors
    rcases hx with hx | hx
    · exact foldl_step_keeps_keys n _ _ (foldl_set_has_key e [] x hx)
    · exact foldl_step_has_key n _ x hx
  obtain ⟨q, hq, hqk⟩ := key
  have hh := (uniqueMirrors_ok e n).2 q hq
  refine ⟨q.2, (mem_mergeMirrors ro e n q.2).mpr ?_, hh.trans hqk⟩
  rw [hh]
  exact hq

theorem mergeMirrors_nodup (ro : RangeOrder) (e n : List mirror) :
    ((mergeMirrors ro e n).map mirror.host).Nodup := by
  unfold mergeMirrors
  rw [((ro.mirrors_perm _).map mirror.host).nodup_iff]
  have hok := uniqueMirrors_ok e n
  have : (mapValues (uniqueMirrors e n)).map mirror.host = (uniqueMirrors e n).map Prod.fst := by
    unfold mapValues
    rw [List.map_map]
    apply List.map_congr_left
    intro p hp
    exact hok.2 p hp
  rw [this]
  exact hok.1

theorem mergeMirrors_resolve_existing (ro : RangeOrder) (e n : List mirror) (h : String)
    (hex : ∃ x ∈ e, x.host = h) (hall : ∀ x ∈ e, x.host = h → x.resolveTags = true) :
    ∀ y ∈ mergeMirrors ro e n, y.host = h → y.resolveTags = true := by
  intro y hy hyh
  rw [mem_mergeMirrors] at hy
  have h0 : resolvesAt h (e.foldl (fun u m => mapSet u m.host m) []) := by
    obtain ⟨x, hx, hxh⟩ := hex
    refine ⟨?_, ?_⟩
    · obtain ⟨q, hq, hqk⟩ := foldl_set_has_key e [] x hx
      exact ⟨q, hq, hqk.trans hxh⟩
    · intro p hp hpk
      rcases foldl_set_mem e [] p hp with hp | ⟨hp1, hp2⟩
      · simp at hp
      · exact hall p.2 hp1 (hp2.symm.trans hpk)
  have h1 := resolvesAt_foldl h n _ h0
  exact h1.2 (y.host, y) hy hyh

theorem mergeMirrors_resolve_new (ro : RangeOrder) (e n : List mirror) (x : mirror)
    (hx : x ∈ n) (hxr : x.resolveTags = true) :
    ∀ y ∈ mergeMirrors ro e n, y.host = x.host → y.resolveTags = true := by
  intro y hy hyh
  rw [mem_mergeMirrors] at hy
  have h1 := resolvesAt_foldl_new n _ (foldl_set_ok e [] ⟨by simp, by simp⟩) x hx hxr
  exact h1.2 (y.host, y) hy hyh

/-! ## The map of `mergeMirrorSets` -/

theorem mergeMirrorSetsStep_eq (ro : RangeOrder) (u : List (String × mirrorSet))
    (ms : mirrorSet) :
    mergeMirrorSetsStep ro u ms = mapSet u ms.source (mergedSet ro u ms) := by
  unfold mergeMirrorSetsStep mergedSet
  split <;> rfl

theorem uniqueMirrorSets_snoc (ro : RangeOrder) (l : List mirrorSet) (x : mirrorSet) :
    uniqueMirrorSets ro (l ++ [x]) =
      mapSet (uniqueMirrorSets ro l) x.source (mergedSet ro (uniqueMirrorSets ro l) x) := by
  unfold uniqueMirrorSets
  rw [List.foldl_append]
  simp only [List.foldl_cons, List.foldl_nil]
  exact mergeMirrorSetsStep_eq ro _ x

theorem mergedSet_source (ro : RangeOrder) (u : List (String × mirrorSet))
    (hu : setsMapOk u) (ms : mirrorSet) : (mergedSet ro u ms).source = ms.source := by
  unfold mergedSet
  split
  · rename_i ex hex
    have := hu.2 (ms.source, ex) (mapGet_some u ms.source ex hex)
    dsimp only
    split <;> exact this
  · rfl

theorem uniqueMirrorSets_ok (ro : RangeOrder) (l : List mirrorSet) :
    setsMapOk (uniqueMirrorSets ro l) := by
  induction l using List.reverseRecOn with
  | nil => exact ⟨by simp [uniqueMirrorSets], by simp [uniqueMirrorSets]⟩
  | append_singleton l x ih =>
    rw [uniqueMirrorSets_snoc]
    refine ⟨nodup_keys_mapSet _ _ _ ih.1, ?_⟩
    intro p hp
    rcases (mem_mapSet _ _ _ p).mp hp with rfl | ⟨_, hp⟩
    · exact mergedSet_source ro _ ih x
    · exact ih.2 p hp

theorem uniqueMirrorSets_has_key (ro : RangeOrder) (l : List mirrorSet) :
    ∀ ms ∈ l, ∃ p ∈ uniqueMirrorSets ro l, p.1 = ms.source := by
  induction l using List.reverseRecOn with
  | nil => simp
  | append_singleton l x ih =>
    intro ms hms
    rw [uniqueMirrorSets_snoc]
    rcases List.mem_append.mp hms with h | h
    · exact mapSet_keeps_keys _ _ _ _ (ih ms h)
    · rw [List.mem_singleton.mp h]
      exact ⟨_, mapSet_key_mem _ _ _, rfl⟩

theorem uniqueMirrorSets_key_from (ro : RangeOrder) (l : List mirrorSet) :
    ∀ p ∈ uniqueMirrorSets ro l, ∃ ms ∈ l, ms.source = p.1 := by
  induction l using List.reverseRecOn with
  | nil => simp [uniqueMirrorSets]
  | append_singleton l x ih =>
    intro p hp
    rw [uniqueMirrorSets_snoc] at hp
    rcases (mem_mapSet _ _ _ p).mp hp with rfl | ⟨_, hp⟩
    · exact ⟨x, by simp, rfl⟩
    · obtain ⟨ms, hms, h⟩ := ih p hp
      exact ⟨ms, List.mem_append_left _ hms, h⟩

/-- The sets `mergeMirrorSets` returns are the values of its map, each with its
mirrors sorted. -/
theorem mem_mergeMirrorSets (ro : RangeOrder) (l : List mirrorSet) (S : mirrorSet) :
    S ∈ mergeMirrorSets ro l ↔
      ∃ p ∈ uniqueMirrorSets ro l,
        S = { p.2 with
              mirrors := sortSlice (fun a b => stringLess a.host b.host) p.2.mirrors } := by
  unfold mergeMirrorSets sortMirrorSets
  simp only
  rw [(sortSlice_perm _ _).mem_iff, List.mem_map]
  constructor
  · rintro ⟨v, hv, rfl⟩
    rw [(ro.mirrorSets_perm _).mem_iff] at hv
    unfold mapValues at hv
    obtain ⟨p, hp, rfl⟩ := List.mem_map.mp hv
    exact ⟨p, hp, rfl⟩
  · rintro ⟨p, hp, rfl⟩
    refine ⟨p.2, ?_, rfl⟩
    rw [(ro.mirrorSets_perm _).mem_iff]
    exact List.mem_map.mpr ⟨p, hp, rfl⟩

theorem mergedSet_none (ro : RangeOrder) (u : List (String × mirrorSet)) (ms : mirrorSet)
    (h : mapGet u ms.source = none) : mergedSet ro u ms = ms := by
  unfold mergedSet
  rw [h]

theorem mergedSet_policy (ro : RangeOrder) (u : List (String × mirrorSet))
    (ms ex : mirrorSet) (h : mapGet u ms.source = some ex) :
    (mergedSet ro u ms).mirrorSourcePolicy =
      if ex.mirrorSourcePolicy = AllowContactingSource then ms.mirrorSourcePolicy
      else ex.mirrorSourcePolicy := by
  unfold mergedSet
  rw [h]
  dsimp only
  split <;> rfl

theorem mergedSet_mirrors (ro : RangeOrder) (u : List (String × mirrorSet))
    (ms ex : mirrorSet) (h : mapGet u ms.source = some ex) :
    (mergedSet ro u ms).mirrors = mergeMirrors ro ex.mirrors ms.mirrors := by
  unfold mergedSet
  rw [h]
  dsimp only
  split <;> rfl

theorem mapGet_none_fresh (ro : RangeOrder) (l : List mirrorSet) (x : mirrorSet)
    (h : mapGet (uniqueMirrorSets ro l) x.source = none) :
    ∀ ms ∈ l, ms.source ≠ x.source := by
  intro ms hms heq
  obtain ⟨p, hp, hpk⟩ := uniqueMirrorSets_has_key ro l ms hms
  exact mapGet_none _ _ h p hp (hpk.trans heq)

/-- The policy held for a source, when every policy met is one of the two
constants: `NeverContactSource` as soon as one set of the source asked for it. -/
theorem uniqueMirrorSets_policy (ro : RangeOrder) (l : List mirrorSet)
    (hl : ∀ ms ∈ l, ms.mirrorSourcePolicy = AllowContactingSource ∨
      ms.mirrorSourcePolicy = NeverContactSource) :
    ∀ p ∈ uniqueMirrorSets ro l,
      (p.2.mirrorSourcePolicy = AllowContactingSource ∨
        p.2.mirrorSourcePolicy = NeverContactSource) ∧
      ((∃ ms ∈ l, ms.source = p.1 ∧ ms.mirrorSourcePolicy = NeverContactSource) →
        p.2.mirrorSourcePolicy = NeverContactSource) := by
  induction l using List.reverseRecOn with
  | nil => simp [uniqueMirrorSets]
  | append_singleton l x ih =>
    have ih := ih (fun ms hms => hl ms (List.mem_append_left _ hms))
    have hx := hl x (by simp)
    intro p hp
    rw [uniqueMirrorSets_snoc] at hp
    rcases (mem_mapSet _ _ _ p).mp hp with rfl | ⟨hne, hp⟩
    · dsimp only
      cases hget : mapGet (uniqueMirrorSets ro l) x.source with
      | none =>
        rw [mergedSet_none ro _ x hget]
        refine ⟨hx, ?_⟩
        rintro ⟨ms, hms, hsrc, hpol⟩
        rcases List.mem_append.mp hms with h | h
        · exact absurd hsrc (mapGet_none_fresh ro l x hget ms h)
        · rw [List.mem_singleton.mp h] at hpol
          exact hpol
      | some ex =>
        rw [mergedSet_policy ro _ x ex hget]
        have hex := ih (x.source, ex) (mapGet_some _ _ _ hget)
        dsimp only at hex
        constructor
        · split
          · exact hx
          · exact hex.1
        · rintro ⟨ms, hms, hsrc, hpol⟩
          rcases List.mem_append.mp hms with h | h
          · have := hex.2 ⟨ms, h, hsrc, hpol⟩
            rw [this]
            simp [NeverContactSource, AllowContactingSource]
          · rw [List.mem_singleton.mp h] at hpol
            split
            · exact hpol
            · rename_i hna
              rcases hex.1 with h1 | h1
              · exact absurd h1 hna
              · exact h1
    · refine ⟨(ih p hp).1, ?_⟩
      rintro ⟨ms, hms, hsrc, hpol⟩
      rcases List.mem_append.mp hms with h | h
      · exact (ih p hp).2 ⟨ms, h, hsrc, hpol⟩
      · rw [List.mem_singleton.mp h] at hsrc
        exact absurd hsrc.symm hne

/-- The mirrors held for a source, when the mirrors of each set met agree on
`resolveTags`: a host that one set of the source lists with `resolveTags` is
held, and only with `resolveTags`. -/
theorem uniqueMirrorSets_resolve (ro : RangeOrder) (l : List mirrorSet)
    (hl : ∀ ms ∈ l, ∀ a ∈ ms.mirrors, ∀ b ∈ ms.mirrors, a.resolveTags = b.resolveTags) :
    ∀ p ∈ uniqueMirrorSets ro l, ∀ h : String,
      (∃ ms ∈ l, ms.source = p.1 ∧ ∃ m ∈ ms.mirrors, m.host = h ∧ m.resolveTags = true) →
        (∃ y ∈ p.2.mirrors, y.host = h) ∧
          ∀ y ∈ p.2.mirrors, y.host = h → y.resolveTags = true := by
  induction l using List.reverseRecOn with
  | nil => simp [uniqueMirrorSets]
  | append_singleton l x ih =>
    have ih := ih (fun ms hms => hl ms (List.mem_append_left _ hms))
    have hx := hl x (by simp)
    intro p hp h
    rw [uniqueMirrorSets_snoc] at hp
    rcases (mem_mapSet _ _ _ p).mp hp with rfl | ⟨hne, hp⟩
    · dsimp only
      rintro ⟨ms, hms, hsrc, m, hm, hmh, hmr⟩
      cases hget : mapGet (uniqueMirrorSets ro l) x.source with
      | none =>
        rw [mergedSet_none ro _ x hget]
        rcases List.mem_append.mp hms with h1 | h1
        · exact absurd hsrc (mapGet_none_fresh ro l x hget ms h1)
        · rw [List.mem_singleton.mp h1] at hm
          exact ⟨⟨m, hm, hmh⟩, fun y hy _ => (hx y hy m hm).trans hmr⟩
      | some ex =>
        rw [mergedSet_mirrors ro _ x ex hget]
        rcases List.mem_append.mp hms with h1 | h1
        · have hex := ih (x.source, ex) (mapGet_some _ _ _ hget) h
            ⟨ms, h1, hsrc, m, hm, hmh, hmr⟩
          dsimp only at hex
          obtain ⟨y0, hy0, hy0h⟩ := hex.1
          refine ⟨?_, mergeMirrors_resolve_existing ro ex.mirrors x.mirrors h hex.1 hex.2⟩
          obtain ⟨y, hy, hyh⟩ := mergeMirrors_has_host ro ex.mirrors x.mirrors y0 (Or.inl hy0)
          exact ⟨y, hy, hyh.trans hy0h⟩
        · rw [List.mem_singleton.mp h1] at hm
          refine ⟨?_, ?_⟩
          · obtain ⟨y, hy, hyh⟩ := mergeMirrors_has_host ro ex.mirrors x.mirrors m (Or.inr hm)
            exact ⟨y, hy, hyh.trans hmh⟩
          · intro y hy hyh
            exact mergeMirrors_resolve_new ro ex.mirrors x.mirrors m hm hmr y hy
              (hyh.trans hmh.symm)
    · rintro ⟨ms, hms, hsrc, hrest⟩
      rcases List.mem_append.mp hms with h1 | h1
      · exact ih p hp h ⟨ms, h1, hsrc, hrest⟩
      · rw [List.mem_singleton.mp h1] at hsrc
        exact absurd hsrc.symm hne

/-! ## The result of `mergeMirrorSets` -/

theorem mergeMirrorSets_sources_nodup (ro : RangeOrder) (l : List mirrorSet) :
    ((mergeMirrorSets ro l).map mirrorSet.source).Nodup := by
  unfold mergeMirrorSets sortMirrorSets
  simp only
  rw [((sortSlice_perm _ _).map mirrorSet.source).nodup_iff, List.map_map]
  rw [(((ro.mirrorSets_perm _).map _)).nodup_iff]
  have hok := uniqueMirrorSets_ok ro l
  have : (mapValues (uniqueMirrorSets ro l)).map
      (mirrorSet.source ∘ fun ms : mirrorSet =>
        { ms with mirrors := sortSlice (fun a b => stringLess a.host b.host) ms.mirrors }) =
      (uniqueMirrorSets ro l).map Prod.fst := by
    unfold mapValues
    rw [List.map_map]
    apply List.map_congr_left
    intro p hp
    exact hok.2 p hp
  rw [this]
  exact hok.1

theorem mergeMirrorSets_sorted (ro : RangeOrder) (l : List mirrorSet) :
    (mergeMirrorSets ro l).Pairwise (fun a b => a.source < b.source) := by
  have hle : (mergeMirrorSets ro l).Pairwise (fun a b => a.source ≤ b.source) := by
    unfold mergeMirrorSets sortMirrorSets
    exact sortSlice_pairwise mirrorSet.source _
  have h1 : ((mergeMirrorSets ro l).map mirrorSet.source).Sorted (· ≤ ·) :=
    List.pairwise_map.mpr hle
  have h2 := h1.lt_of_le (mergeMirrorSets_sources_nodup ro l)
  exact List.pairwise_map.mp h2

theorem mergeMirrorSets_mirrors_sorted (ro : RangeOrder) (l : List mirrorSet)
    (S : mirrorSet) (hS : S ∈ mergeMirrorSets ro l) :
    S.mirrors.Pairwise (fun a b => a.host ≤ b.host) := by
  obtain ⟨p, _, rfl⟩ := (mem_mergeMirrorSets ro l S).mp hS
  exact sortSlice_pairwise mirror.host _

/-! ## The sets `NewRegistryConfig` builds -/

theorem foldl_snoc_map {α β : Type} (f : α → β) (l : List α) (init : List β) :
    l.foldl (fun acc x => acc ++ [f x]) init = init ++ l.map f := by
  induction l generalizing init with
  | nil => simp
  | cons a rest ih => simp [ih]

theorem foldl_foldl_snoc_map {α β γ : Type} (g : α → List β) (f : β → γ) (l : List α)
    (init : List γ) :
    l.foldl (fun acc x => (g x).foldl (fun acc y => acc ++ [f y]) acc) init =
      init ++ l.flatMap (fun x => (g x).map f) := by
  induction l generalizing init with
  | nil => simp
  | cons a rest ih =>
    simp only [List.foldl_cons, List.flatMap_cons]
    rw [ih, foldl_snoc_map, List.append_assoc]

theorem newMirrorSet_mirrors (srcImage : String) (mirrorLocations : List String)
    (resolveTags : Bool) (policy : MirrorSourcePolicy) :
    (newMirrorSet srcImage mirrorLocations resolveTags policy).mirrors =
      mirrorLocations.map (fun m => newMirror srcImage m resolveTags) := by
  unfold newMirrorSet
  simp [foldl_snoc_map]

theorem newMirrorSet_resolveTags (srcImage : String) (mirrorLocations : List String)
    (resolveTags : Bool) (policy : MirrorSourcePolicy) :
    ∀ a ∈ (newMirrorSet srcImage mirrorLocations resolveTags policy).mirrors,
      a.resolveTags = resolveTags := by
  intro a ha
  rw [newMirrorSet_mirrors] at ha
  obtain ⟨m, _, rfl⟩ := List.mem_map.mp ha
  rfl

theorem allMirrorSets_eq (idmsItems : List ImageDigestMirrorSet)
    (idtsItems : List ImageTagMirrorSet) :
    allMirrorSets idmsItems idtsItems =
      idmsItems.flatMap (fun idms => idms.Spec.ImageDigestMirrors.map (fun entry =>
        newMirrorSet entry.Source entry.Mirrors false entry.MirrorSourcePolicy)) ++
      idtsItems.flatMap (fun itms => itms.Spec.ImageTagMirrors.map (fun entry =>
        newMirrorSet entry.Source entry.Mirrors true entry.MirrorSourcePolicy)) := by
  unfold allMirrorSets
  simp only [foldl_foldl_snoc_map, List.nil_append]

theorem allMirrorSets_uniform (idmsItems : List ImageDigestMirrorSet)
    (idtsItems : List ImageTagMirrorSet) :
    ∀ ms ∈ allMirrorSets idmsItems idtsItems, ∀ a ∈ ms.mirrors, ∀ b ∈ ms.mirrors,
      a.resolveTags = b.resolveTags := by
  intro ms hms a ha b hb
  rw [allMirrorSets_eq] at hms
  simp only [List.mem_append, List.mem_flatMap, List.mem_map] at hms
  rcases hms with ⟨_, _, e, _, rfl⟩ | ⟨_, _, e, _, rfl⟩
  · exact (newMirrorSet_resolveTags _ _ _ _ a ha).trans (newMirrorSet_resolveTags _ _ _ _ b hb).symm
  · exact (newMirrorSet_resolveTags _ _ _ _ a ha).trans (newMirrorSet_resolveTags _ _ _ _ b hb).symm

/-! ## The text of `generateConfig` -/

theorem foldl_append_init (l : List String) (x y : String) :
    l.foldl (fun r s => r ++ s) (x ++ y) = x ++ l.foldl (fun r s => r ++ s) y := by
  induction l generalizing y with
  | nil => rfl
  | cons a rest ih =>
    simp only [List.foldl_cons]
    rw [String.append_assoc]
    exact ih (y ++ a)

theorem join_cons (a : String) (l : List String) :
    String.join (a :: l) = a ++ String.join l := by
  unfold String.join
  simp only [List.foldl_cons]
  have := foldl_append_init l a ""
  simpa using this

theorem hostSections_foldl (l : List mirror) (init : String) :
    l.foldl (fun result m =>
        result ++ ("[host.\"https://" ++ m.host ++ "\"]") ++ "\r\n" ++
          (if m.resolveTags then "  capabilities = [\"pull\", \"resolve\"]"
            else "  capabilities = [\"pull\"]") ++ "\r\n") init =
      init ++ String.join (l.map (fun m =>
        "[host.\"https://" ++ m.host ++ "\"]" ++ "\r\n" ++
          (if m.resolveTags then "  capabilities = [\"pull\", \"resolve\"]"
            else "  capabilities = [\"pull\"]") ++ "\r\n")) := by
  induction l generalizing init with
  | nil => simp [String.join]
  | cons a rest ih =>
    simp only [List.foldl_cons, List.map_cons, join_cons]
    rw [ih]
    simp only [String.append_assoc]

theorem generateConfig_cons (ms : mirrorSet) (first : mirror) (rest : List mirror)
    (h : ms.mirrors = first :: rest) :
    generateConfig ms =
      "server = \"https://" ++
        (if ms.mirrorSourcePolicy = NeverContactSource then first.host else ms.source) ++
        "\"" ++ "\r\n\r\n" ++
        String.join (ms.mirrors.map (fun m =>
          "[host.\"https://" ++ m.host ++ "\"]" ++ "\r\n" ++
            (if m.resolveTags then "  capabilities = [\"pull\", \"resolve\"]"
              else "  capabilities = [\"pull\"]") ++ "\r\n")) := by
  unfold generateConfig
  rw [h]
  dsimp only
  rw [hostSections_foldl]
  simp only [String.append_assoc, String.empty_append]

/-! ## Small inputs -/

theorem range_mirrors_singleton (ro : RangeOrder) (a : mirror) : ro.mirrors [a] = [a] :=
  List.perm_singleton.mp (ro.mirrors_perm [a])

theorem range_mirrorSets_singleton (ro : RangeOrder) (a : mirrorSet) :
    ro.mirrorSets [a] = [a] :=
  List.perm_singleton.mp (ro.mirrorSets_perm [a])

/-- A single set goes through `mergeMirrorSets` with its mirrors sorted and
nothing else done to it. -/
theorem mergeMirrorSets_singleton (ro : RangeOrder) (x : mirrorSet) :
    mergeMirrorSets ro [x] =
      [{ x with mirrors := sortSlice (fun a b => stringLess a.host b.host) x.mirrors }] := by
  have h : uniqueMirrorSets ro [x] = [(x.source, x)] := by
    simp [uniqueMirrorSets, mergeMirrorSetsStep, mapGet, mapSet]
  unfold mergeMirrorSets
  rw [h]
  simp [mapValues, range_mirrorSets_singleton, sortMirrorSets, sortSlice]

/-- Two sets of one source go through `mergeMirrorSets` as one set: the mirrors
merged and sorted, the policy of the second kept only if the first has
`AllowContactingSource`. -/
theorem mergeMirrorSets_pair (ro : RangeOrder) (x y : mirrorSet) (h : y.source = x.source) :
    mergeMirrorSets ro [x, y] =
      [{ source := x.source,
         mirrors := sortSlice (fun a b => stringLess a.host b.host)
           (mergeMirrors ro x.mirrors y.mirrors),
         mirrorSourcePolicy :=
           if x.mirrorSourcePolicy = AllowContactingSource then y.mirrorSourcePolicy
           else x.mirrorSourcePolicy }] := by
  have hu : uniqueMirrorSets ro [x, y] =
      [(x.source, { source := x.source, mirrors := mergeMirrors ro x.mirrors y.mirrors,
                    mirrorSourcePolicy :=
                      if x.mirrorSourcePolicy = AllowContactingSource then y.mirrorSourcePolicy
                      else x.mirrorSourcePolicy })] := by
    simp only [uniqueMirrorSets, List.foldl_cons, List.foldl_nil, mergeMirrorSetsStep, mapGet,
      mapSet, h, List.map_nil, List.not_mem_nil, if_false, List.nil_append, if_true,
      List.map_cons, List.mem_singleton]
    split <;> rfl
  unfold mergeMirrorSets
  rw [hu]
  simp [mapValues, range_mirrorSets_singleton, sortMirrorSets, sortSlice]

/-! ## The claims -/

/-- C1 (evaluated where it fails): a digest entry, alone for its source, whose two
mirror images `m.io/a/b` and `m.io/b` both normalise to host `m.io` comes out of
`NewRegistryConfig` with the host `m.io` twice, whatever order `range` takes; the
mirrors of a set that is not merged are sorted and not consolidated. -/
theorem NewRegistryConfig_single_entry_keeps_duplicate_hosts (ro : RangeOrder) :
    NewRegistryConfig ro
        [⟨⟨[⟨"r.io/a/b", ["m.io/a/b", "m.io/b"], AllowContactingSource⟩]⟩⟩] [] =
      [⟨"r.io", [⟨"m.io", false⟩, ⟨"m.io", false⟩], AllowContactingSource⟩] ∧
    ¬ ((([⟨"m.io", false⟩, ⟨"m.io", false⟩] : List mirror).map mirror.host).Nodup) ∧
    generateConfig ⟨"r.io", [⟨"m.io", false⟩, ⟨"m.io", false⟩], AllowContactingSource⟩ =
      "server = \"https://r.io\"\r\n\r\n" ++
      "[host.\"https://m.io\"]\r\n  capabilities = [\"pull\"]\r\n" ++
      "[host.\"https://m.io\"]\r\n  capabilities = [\"pull\"]\r\n" := by
  refine ⟨?_, by decide, by decide⟩
  unfold NewRegistryConfig
  have h : allMirrorSets
      [⟨⟨[⟨"r.io/a/b", ["m.io/a/b", "m.io/b"], AllowContactingSource⟩]⟩⟩] [] =
      [⟨"r.io", [⟨"m.io", false⟩, ⟨"m.io", false⟩], AllowContactingSource⟩] := by decide
  rw [h, mergeMirrorSets_singleton]
  have hs : sortSlice (fun a b => stringLess a.host b.host)
      ([⟨"m.io", false⟩, ⟨"m.io", false⟩] : List mirror) =
      [⟨"m.io", false⟩, ⟨"m.io", false⟩] := by decide
  rw [hs]

/-- C2: when every policy in the list is `AllowContactingSource` or
`NeverContactSource`, a set returned by `mergeMirrorSets` has policy
`NeverContactSource` as soon as one input set of its source has it, wherever that
set stands in the list. -/
theorem mergeMirrorSets_never_contact_prevails (ro : RangeOrder) (l : List mirrorSet)
    (hl : ∀ ms ∈ l, ms.mirrorSourcePolicy = AllowContactingSource ∨
      ms.mirrorSourcePolicy = NeverContactSource)
    (S : mirrorSet) (hS : S ∈ mergeMirrorSets ro l)
    (hex : ∃ ms ∈ l, ms.source = S.source ∧ ms.mirrorSourcePolicy = NeverContactSource) :
    S.mirrorSourcePolicy = NeverContactSource := by
  obtain ⟨p, hp, rfl⟩ := (mem_mergeMirrorSets ro l S).mp hS
  have hsrc := (uniqueMirrorSets_ok ro l).2 p hp
  obtain ⟨ms, hms, h1, h2⟩ := hex
  exact (uniqueMirrorSets_policy ro l hl p hp).2 ⟨ms, hms, h1.trans hsrc, h2⟩

/-- C2 at `[Allow, Never]` and at `[Never, Allow]`: both yield `NeverContactSource`. -/
theorem mergeMirrorSets_never_contact_prevails_witness :
    ((⟨"s.io", [⟨"a.io", false⟩], NeverContactSource⟩ : mirrorSet) ∈
        mergeMirrorSets RangeOrder.insertion
          [⟨"s.io", [⟨"a.io", false⟩], AllowContactingSource⟩,
           ⟨"s.io", [⟨"a.io", false⟩], NeverContactSource⟩] ∧
      (⟨"s.io", [⟨"a.io", false⟩], NeverContactSource⟩ : mirrorSet).mirrorSourcePolicy =
        NeverContactSource) ∧
    ((⟨"s.io", [⟨"a.io", false⟩], NeverContactSource⟩ : mirrorSet) ∈
        mergeMirrorSets RangeOrder.insertion
          [⟨"s.io", [⟨"a.io", false⟩], NeverContactSource⟩,
           ⟨"s.io", [⟨"a.io", false⟩], AllowContactingSource⟩] ∧
      (⟨"s.io", [⟨"a.io", false⟩], NeverContactSource⟩ : mirrorSet).mirrorSourcePolicy =
        NeverContactSource) :=
  ⟨⟨by decide,
    mergeMirrorSets_never_contact_prevails RangeOrder.insertion
      [⟨"s.io", [⟨"a.io", false⟩], AllowContactingSource⟩,
       ⟨"s.io", [⟨"a.io", false⟩], NeverContactSource⟩]
      (by decide) ⟨"s.io", [⟨"a.io", false⟩], NeverContactSource⟩ (by decide) (by decide)⟩,
   ⟨by decide,
    mergeMirrorSets_never_contact_prevails RangeOrder.insertion
      [⟨"s.io", [⟨"a.io", false⟩], NeverContactSource⟩,
       ⟨"s.io", [⟨"a.io", false⟩], AllowContactingSource⟩]
      (by decide) ⟨"s.io", [⟨"a.io", false⟩], NeverContactSource⟩ (by decide) (by decide)⟩⟩

/-- C3 (evaluated where it fails): two digest policy objects for the source
`s.io/a`, one with the policy left unset and one with `NeverContactSource`. In
the order (unset, never) `NewRegistryConfig` keeps the unset policy and the text
names the source as fallback server; in the order (never, unset) it keeps
`NeverContactSource` and the text names the mirror. This holds whatever order
`range` takes. -/
theorem NewRegistryConfig_unset_policy_depends_on_order (ro : RangeOrder) :
    ([⟨⟨[⟨"s.io/a", ["m.io/a"], ""⟩]⟩⟩,
      ⟨⟨[⟨"s.io/a", ["m.io/a"], NeverContactSource⟩]⟩⟩] : List ImageDigestMirrorSet).Perm
      [⟨⟨[⟨"s.io/a", ["m.io/a"], NeverContactSource⟩]⟩⟩,
       ⟨⟨[⟨"s.io/a", ["m.io/a"], ""⟩]⟩⟩] ∧
    NewRegistryConfig ro
        [⟨⟨[⟨"s.io/a", ["m.io/a"], ""⟩]⟩⟩,
         ⟨⟨[⟨"s.io/a", ["m.io/a"], NeverContactSource⟩]⟩⟩] [] =
      [⟨"s.io", [⟨"m.io", false⟩], ""⟩] ∧
    NewRegistryConfig ro
        [⟨⟨[⟨"s.io/a", ["m.io/a"], NeverContactSource⟩]⟩⟩,
         ⟨⟨[⟨"s.io/a", ["m.io/a"], ""⟩]⟩⟩] [] =
      [⟨"s.io", [⟨"m.io", false⟩], NeverContactSource⟩] ∧
    generateConfig ⟨"s.io", [⟨"m.io", false⟩], ""⟩ =
      "server = \"https://s.io\"\r\n\r\n" ++
      "[host.\"https://m.io\"]\r\n  capabilities = [\"pull\"]\r\n" ∧
    generateConfig ⟨"s.io", [⟨"m.io", false⟩], NeverContactSource⟩ =
      "server = \"https://m.io\"\r\n\r\n" ++
      "[host.\"https://m.io\"]\r\n  capabilities = [\"pull\"]\r\n" := by
  have hm : mergeMirrors ro [⟨"m.io", false⟩] [⟨"m.io", false⟩] = [⟨"m.io", false⟩] := by
    unfold mergeMirrors
    have h : mapValues (uniqueMirrors [⟨"m.io", false⟩] [⟨"m.io", false⟩]) =
        [⟨"m.io", false⟩] := by decide
    rw [h, range_mirrors_singleton]
  have hs : sortSlice (fun a b => stringLess a.host b.host)
      ([⟨"m.io", false⟩] : List mirror) = [⟨"m.io", false⟩] := by decide
  refine ⟨List.Perm.swap _ _ _, ?_, ?_, by decide, by decide⟩
  · unfold NewRegistryConfig
    have h : allMirrorSets
        [⟨⟨[⟨"s.io/a", ["m.io/a"], ""⟩]⟩⟩,
         ⟨⟨[⟨"s.io/a", ["m.io/a"], NeverContactSource⟩]⟩⟩] [] =
        [⟨"s.io", [⟨"m.io", false⟩], ""⟩,
         ⟨"s.io", [⟨"m.io", false⟩], NeverContactSource⟩] := by decide
    rw [h, mergeMirrorSets_pair ro ⟨"s.io", [⟨"m.io", false⟩], ""⟩
      ⟨"s.io", [⟨"m.io", false⟩], NeverContactSource⟩ rfl]
    simp only [hm, hs]
    rfl
  · unfold NewRegistryConfig
    have h : allMirrorSets
        [⟨⟨[⟨"s.io/a", ["m.io/a"], NeverContactSource⟩]⟩⟩,
         ⟨⟨[⟨"s.io/a", ["m.io/a"], ""⟩]⟩⟩] [] =
        [⟨"s.io", [⟨"m.io", false⟩], NeverContactSource⟩,
         ⟨"s.io", [⟨"m.io", false⟩], ""⟩] := by decide
    rw [h, mergeMirrorSets_pair ro ⟨"s.io", [⟨"m.io", false⟩], NeverContactSource⟩
      ⟨"s.io", [⟨"m.io", false⟩], ""⟩ rfl]
    simp only [hm, hs]
    rfl

/-- C4: in the result of `NewRegistryConfig`, a mirror of the set for source `s`
whose host is the host of a mirror image listed by some tag entry of source `s`
has `resolveTags = true`, however many digest entries give the same source and
host and whatever the order of the entries. -/
theorem NewRegistryConfig_resolveTags_of_tag_entry (ro : RangeOrder)
    (idmsItems : List ImageDigestMirrorSet) (idtsItems : List ImageTagMirrorSet)
    (S : mirrorSet) (hS : S ∈ NewRegistryConfig ro idmsItems idtsItems)
    (m : mirror) (hm : m ∈ S.mirrors)
    (htag : ∃ itms ∈ idtsItems, ∃ entry ∈ itms.Spec.ImageTagMirrors,
      extractHostname entry.Source = S.source ∧
        ∃ image ∈ entry.Mirrors, (newMirror entry.Source image true).host = m.host) :
    m.resolveTags = true := by
  unfold NewRegistryConfig at hS
  obtain ⟨p, hp, rfl⟩ := (mem_mergeMirrorSets ro _ S).mp hS
  have hsrc := (uniqueMirrorSets_ok ro _).2 p hp
  dsimp only at hm htag
  rw [(sortSlice_perm _ _).mem_iff] at hm
  obtain ⟨itms, hitms, entry, hentry, hsource, image, himage, hhost⟩ := htag
  have hin : newMirrorSet entry.Source entry.Mirrors true entry.MirrorSourcePolicy ∈
      allMirrorSets idmsItems idtsItems := by
    rw [allMirrorSets_eq]
    apply List.mem_append_right
    exact List.mem_flatMap.mpr ⟨itms, hitms, List.mem_map.mpr ⟨entry, hentry, rfl⟩⟩
  have hres := uniqueMirrorSets_resolve ro _ (allMirrorSets_uniform idmsItems idtsItems)
    p hp m.host
    ⟨_, hin, hsource.trans hsrc, newMirror entry.Source image true,
      by rw [newMirrorSet_mirrors]; exact List.mem_map.mpr ⟨image, himage, rfl⟩,
      hhost, rfl⟩
  exact hres.2 m hm rfl

/-- C4 at two digest entries and one tag entry that all give source `r.io` and
host `m.io`. -/
theorem NewRegistryConfig_resolveTags_of_tag_entry_witness :
    (⟨"r.io", [⟨"m.io", true⟩], AllowContactingSource⟩ : mirrorSet) ∈
      NewRegistryConfig RangeOrder.insertion
        [⟨⟨[⟨"r.io/a", ["m.io/a"], AllowContactingSource⟩,
            ⟨"r.io/a", ["m.io/a"], AllowContactingSource⟩]⟩⟩]
        [⟨⟨[⟨"r.io/a", ["m.io/a"], AllowContactingSource⟩]⟩⟩] ∧
    (⟨"m.io", true⟩ : mirror).resolveTags = true :=
  ⟨by decide,
   NewRegistryConfig_resolveTags_of_tag_entry RangeOrder.insertion
    [⟨⟨[⟨"r.io/a", ["m.io/a"], AllowContactingSource⟩,
        ⟨"r.io/a", ["m.io/a"], AllowContactingSource⟩]⟩⟩]
    [⟨⟨[⟨"r.io/a", ["m.io/a"], AllowContactingSource⟩]⟩⟩]
    ⟨"r.io", [⟨"m.io", true⟩], AllowContactingSource⟩ (by decide)
    ⟨"m.io", true⟩ (by decide) (by decide)⟩

/-- C5: the sequence returned by `mergeMirrorSets` is strictly ascending by
source, so its sources are pairwise distinct. -/
theorem mergeMirrorSets_sources_strictly_ascending (ro : RangeOrder) (l : List mirrorSet) :
    (mergeMirrorSets ro l).Pairwise (fun a b => a.source < b.source) ∧
      ((mergeMirrorSets ro l).map mirrorSet.source).Nodup :=
  ⟨mergeMirrorSets_sorted ro l, mergeMirrorSets_sources_nodup ro l⟩

/-- C6: every set returned by `mergeMirrorSets` has its mirrors in ascending order
of host: no mirror has a host smaller than the host of a mirror before it. -/
theorem mergeMirrorSets_mirrors_ascending (ro : RangeOrder) (l : List mirrorSet)
    (S : mirrorSet) (hS : S ∈ mergeMirrorSets ro l) :
    S.mirrors.Pairwise (fun a b => ¬ b.host < a.host) :=
  (mergeMirrorSets_mirrors_sorted ro l S hS).imp (fun h => not_lt.mpr h)

/-- C6 at a set that comes from one input set and at one merged from two. -/
theorem mergeMirrorSets_mirrors_ascending_witness :
    ((⟨"s.io", [⟨"a.io", false⟩, ⟨"z.io", false⟩], ""⟩ : mirrorSet) ∈
        mergeMirrorSets RangeOrder.insertion [⟨"s.io", [⟨"z.io", false⟩, ⟨"a.io", false⟩], ""⟩] ∧
      ([⟨"a.io", false⟩, ⟨"z.io", false⟩] : List mirror).Pairwise
        (fun a b => ¬ b.host < a.host)) ∧
    ((⟨"s.io", [⟨"a.io", true⟩, ⟨"b.io", false⟩, ⟨"z.io", false⟩], ""⟩ : mirrorSet) ∈
        mergeMirrorSets RangeOrder.reversed
          [⟨"s.io", [⟨"z.io", false⟩, ⟨"b.io", false⟩], ""⟩,
           ⟨"s.io", [⟨"a.io", true⟩], ""⟩] ∧
      ([⟨"a.io", true⟩, ⟨"b.io", false⟩, ⟨"z.io", false⟩] : List mirror).Pairwise
        (fun a b => ¬ b.host < a.host)) :=
  ⟨⟨by decide,
    mergeMirrorSets_mirrors_ascending RangeOrder.insertion
      [⟨"s.io", [⟨"z.io", false⟩, ⟨"a.io", false⟩], ""⟩]
      ⟨"s.io", [⟨"a.io", false⟩, ⟨"z.io", false⟩], ""⟩ (by decide)⟩,
   ⟨by decide,
    mergeMirrorSets_mirrors_ascending RangeOrder.reversed
      [⟨"s.io", [⟨"z.io", false⟩, ⟨"b.io", false⟩], ""⟩,
       ⟨"s.io", [⟨"a.io", true⟩], ""⟩]
      ⟨"s.io", [⟨"a.io", true⟩, ⟨"b.io", false⟩, ⟨"z.io", false⟩], ""⟩ (by decide)⟩⟩

/-- C7: for a mirror set with at least one mirror, `generateConfig` is exactly the
server line for the fallback server (the source, or the host of the first mirror
under `NeverContactSource`), an empty line, and for each mirror in list order its
host section header and its capabilities line, every line ended by CR LF. -/
theorem generateConfig_text (ms : mirrorSet) (h : ms.mirrors ≠ []) :
    generateConfig ms =
      "server = \"https://" ++
        (if ms.mirrorSourcePolicy = NeverContactSource then (ms.mirrors.head h).host
          else ms.source) ++
        "\"" ++ "\r\n\r\n" ++
        String.join (ms.mirrors.map (fun m =>
          "[host.\"https://" ++ m.host ++ "\"]" ++ "\r\n" ++
            (if m.resolveTags then "  capabilities = [\"pull\", \"resolve\"]"
              else "  capabilities = [\"pull\"]") ++ "\r\n")) := by
  obtain ⟨first, rest, hm⟩ := List.exists_cons_of_ne_nil h
  have h1 : ms.mirrors.head? = some first := by rw [hm]; rfl
  have h2 : ms.mirrors.head h = first :=
    Option.some.inj ((List.head?_eq_head h).symm.trans h1)
  rw [generateConfig_cons ms first rest hm, h2]

/-- C7 at a set of two mirrors under `NeverContactSource`. -/
theorem generateConfig_text_witness :
    (⟨"s.io", [⟨"a.io", true⟩, ⟨"z.io", false⟩], NeverContactSource⟩ : mirrorSet).mirrors ≠ [] ∧
    generateConfig ⟨"s.io", [⟨"a.io", true⟩, ⟨"z.io", false⟩], NeverContactSource⟩ =
      "server = \"https://" ++
        (if NeverContactSource = NeverContactSource then
          (([⟨"a.io", true⟩, ⟨"z.io", false⟩] : List mirror).head (by decide)).host
          else "s.io") ++
        "\"" ++ "\r\n\r\n" ++
        String.join (([⟨"a.io", true⟩, ⟨"z.io", false⟩] : List mirror).map (fun m =>
          "[host.\"https://" ++ m.host ++ "\"]" ++ "\r\n" ++
            (if m.resolveTags then "  capabilities = [\"pull\", \"resolve\"]"
              else "  capabilities = [\"pull\"]") ++ "\r\n")) :=
  ⟨by decide,
   generateConfig_text ⟨"s.io", [⟨"a.io", true⟩, ⟨"z.io", false⟩], NeverContactSource⟩
    (by decide)⟩

/-- C8: `generateConfig` returns the empty string exactly when the set has no
mirrors. -/
theorem generateConfig_eq_empty_iff (ms : mirrorSet) :
    generateConfig ms = "" ↔ ms.mirrors = [] := by
  cases hm : ms.mirrors with
  | nil =>
    simp only [iff_true]
    unfold generateConfig
    rw [hm]
  | cons first rest =>
    simp only [reduceCtorEq, iff_false]
    rw [generateConfig_cons ms first rest hm]
    intro heq
    have hlen := congrArg String.length heq
    simp only [String.length_append] at hlen
    have h18 : ("server = \"https://" : String).length = 18 := by decide
    have h0 : ("" : String).length = 0 := by decide
    rw [h18, h0] at hlen
    omega

/-- C9: for a set of the result of `NewRegistryConfig` with `NeverContactSource` and
at least one mirror, the server line of `generateConfig` names the host of the
first mirror, and no mirror of the set has a smaller host. -/
theorem generateConfig_never_names_smallest_host (ro : RangeOrder)
    (idmsItems : List ImageDigestMirrorSet) (idtsItems : List ImageTagMirrorSet)
    (S : mirrorSet) (hS : S ∈ NewRegistryConfig ro idmsItems idtsItems)
    (hpolicy : S.mirrorSourcePolicy = NeverContactSource)
    (first : mirror) (rest : List mirror) (hm : S.mirrors = first :: rest) :
    (∀ m ∈ S.mirrors, first.host ≤ m.host) ∧
    generateConfig S =
      "server = \"https://" ++ first.host ++ "\"" ++ "\r\n\r\n" ++
        String.join (S.mirrors.map (fun m =>
          "[host.\"https://" ++ m.host ++ "\"]" ++ "\r\n" ++
            (if m.resolveTags then "  capabilities = [\"pull\", \"resolve\"]"
              else "  capabilities = [\"pull\"]") ++ "\r\n")) := by
  constructor
  · have hsorted := mergeMirrorSets_mirrors_sorted ro _ S hS
    rw [hm] at hsorted ⊢
    intro m hmem
    rcases List.mem_cons.mp hmem with rfl | hmem
    · exact le_refl _
    · exact List.rel_of_pairwise_cons hsorted hmem
  · rw [generateConfig_cons S first rest hm]
    simp only [hpolicy, if_true]

/-- C9 at the entry with source `s.io`, mirrors `z.io` and `a.io` and
`NeverContactSource`: the server line names `a.io`. -/
theorem generateConfig_never_names_smallest_host_witness :
    (⟨"s.io", [⟨"a.io", false⟩, ⟨"z.io", false⟩], NeverContactSource⟩ : mirrorSet) ∈
      NewRegistryConfig RangeOrder.insertion
        [⟨⟨[⟨"s.io", ["z.io", "a.io"], NeverContactSource⟩]⟩⟩] [] ∧
    ((∀ m ∈ ([⟨"a.io", false⟩, ⟨"z.io", false⟩] : List mirror), "a.io" ≤ m.host) ∧
    generateConfig ⟨"s.io", [⟨"a.io", false⟩, ⟨"z.io", false⟩], NeverContactSource⟩ =
      "server = \"https://" ++ "a.io" ++ "\"" ++ "\r\n\r\n" ++
        String.join (([⟨"a.io", false⟩, ⟨"z.io", false⟩] : List mirror).map (fun m =>
          "[host.\"https://" ++ m.host ++ "\"]" ++ "\r\n" ++
            (if m.resolveTags then "  capabilities = [\"pull\", \"resolve\"]"
              else "  capabilities = [\"pull\"]") ++ "\r\n"))) :=
  ⟨by decide,
   generateConfig_never_names_smallest_host RangeOrder.insertion
    [⟨⟨[⟨"s.io", ["z.io", "a.io"], NeverContactSource⟩]⟩⟩] []
    ⟨"s.io", [⟨"a.io", false⟩, ⟨"z.io", false⟩], NeverContactSource⟩ (by decide) rfl
    ⟨"a.io", false⟩ [⟨"z.io", false⟩] rfl⟩

/-- C10 as stated fails: the entry with source `s.io/a`, the one mirror `s.io/a`
and `NeverContactSource` gives a set of source `s.io` whose only mirror has host
`s.io`, and the text names the source as fallback server. -/
theorem generateConfig_never_names_source_counterexample :
    ∃ S ∈ NewRegistryConfig RangeOrder.insertion
        [⟨⟨[⟨"s.io/a", ["s.io/a"], NeverContactSource⟩]⟩⟩] [],
      S.mirrorSourcePolicy = NeverContactSource ∧ S.mirrors ≠ [] ∧ S.source = "s.io" ∧
      generateConfig S =
        "server = \"https://s.io\"\r\n\r\n" ++
        "[host.\"https://s.io\"]\r\n  capabilities = [\"pull\"]\r\n" :=
  ⟨⟨"s.io", [⟨"s.io", false⟩], NeverContactSource⟩, by decide, by decide, by decide,
    by decide, by decide⟩

/-- C10 as amended: for a set of the result of `NewRegistryConfig` with
`NeverContactSource` and at least one mirror, the server line of `generateConfig`
names the smallest host among the mirrors of the set; it does not name the
source provided that smallest host is not the source. -/
theorem generateConfig_never_names_mirror (ro : RangeOrder)
    (idmsItems : List ImageDigestMirrorSet) (idtsItems : List ImageTagMirrorSet)
    (S : mirrorSet) (hS : S ∈ NewRegistryConfig ro idmsItems idtsItems)
    (hpolicy : S.mirrorSourcePolicy = NeverContactSource) (hne : S.mirrors ≠ [])
    (hmin : ∀ m ∈ S.mirrors, (∀ other ∈ S.mirrors, m.host ≤ other.host) →
      m.host ≠ S.source) :
    ∃ fallbackServer : String,
      fallbackServer ≠ S.source ∧
      (∃ m ∈ S.mirrors, m.host = fallbackServer) ∧
      (∀ m ∈ S.mirrors, fallbackServer ≤ m.host) ∧
      generateConfig S =
        "server = \"https://" ++ fallbackServer ++ "\"" ++ "\r\n\r\n" ++
          String.join (S.mirrors.map (fun m =>
            "[host.\"https://" ++ m.host ++ "\"]" ++ "\r\n" ++
              (if m.resolveTags then "  capabilities = [\"pull\", \"resolve\"]"
                else "  capabilities = [\"pull\"]") ++ "\r\n")) := by
  cases hm : S.mirrors with
  | nil => exact absurd hm hne
  | cons first rest =>
    have hsorted := mergeMirrorSets_mirrors_sorted ro _ S hS
    have hfirst : ∀ m ∈ S.mirrors, first.host ≤ m.host := by
      rw [hm] at hsorted ⊢
      intro m hmem
      rcases List.mem_cons.mp hmem with rfl | hmem
      · exact le_refl _
      · exact List.rel_of_pairwise_cons hsorted hmem
    have hmem : first ∈ S.mirrors := by rw [hm]; exact List.mem_cons_self _ _
    refine ⟨first.host, hmin first hmem hfirst, ?_, ?_, ?_⟩
    · exact ⟨first, by rw [← hm]; exact hmem, rfl⟩
    · rw [← hm]; exact hfirst
    · rw [generateConfig_cons S first rest hm]
      simp only [hpolicy, if_true, hm]

/-- C10 as amended, at the entry with source `s.io`, mirrors `z.io` and `a.io` and
`NeverContactSource`. -/
theorem generateConfig_never_names_mirror_witness :
    (⟨"s.io", [⟨"a.io", false⟩, ⟨"z.io", false⟩], NeverContactSource⟩ : mirrorSet) ∈
      NewRegistryConfig RangeOrder.reversed
        [⟨⟨[⟨"s.io", ["z.io", "a.io"], NeverContactSource⟩]⟩⟩] [] ∧
    ∃ fallbackServer : String,
      fallbackServer ≠ "s.io" ∧
      (∃ m ∈ ([⟨"a.io", false⟩, ⟨"z.io", false⟩] : List mirror), m.host = fallbackServer) ∧
      (∀ m ∈ ([⟨"a.io", false⟩, ⟨"z.io", false⟩] : List mirror), fallbackServer ≤ m.host) ∧
      generateConfig ⟨"s.io", [⟨"a.io", false⟩, ⟨"z.io", false⟩], NeverContactSource⟩ =
        "server = \"https://" ++ fallbackServer ++ "\"" ++ "\r\n\r\n" ++
          String.join (([⟨"a.io", false⟩, ⟨"z.io", false⟩] : List mirror).map (fun m =>
            "[host.\"https://" ++ m.host ++ "\"]" ++ "\r\n" ++
              (if m.resolveTags then "  capabilities = [\"pull\", \"resolve\"]"
                else "  capabilities = [\"pull\"]") ++ "\r\n")) :=
  ⟨by decide,
   generateConfig_never_names_mirror RangeOrder.reversed
    [⟨⟨[⟨"s.io", ["z.io", "a.io"], NeverContactSource⟩]⟩⟩] []
    ⟨"s.io", [⟨"a.io", false⟩, ⟨"z.io", false⟩], NeverContactSource⟩ (by decide) rfl
    (by decide)
    (by
      intro m hm _
      simp only [List.mem_cons, List.mem_singleton, List.not_mem_nil, or_false] at hm
      rcases hm with rfl | rfl <;> decide)⟩

/-! ## The loop of `extractMirrorURL` -/

theorem take_take_pred (mp : List String) (n : Nat) (h : n ≤ mp.length) :
    (mp.take n).take ((mp.take n).length - 1) = mp.take (n - 1) := by
  rw [List.length_take, List.take_take]
  congr 1
  omega

/-- What the loop returns from index `i` on: it stops at an index `k`, the
segments at the offsets `i` to `k - 1` from the end agree, those at offset `k` do
not (or one list has no segment there), and the mirror segments are returned
without their last `k`. -/
theorem extractMirrorURLLoop_spec (sp mp : List String) :
    ∀ (steps i : Nat) (u : List String), steps + i = mp.length → i ≤ sp.length →
      u = mp.take (mp.length - i) →
      ∃ k, i ≤ k ∧ k ≤ sp.length ∧ k ≤ mp.length ∧
        (∀ j, i ≤ j → j < k →
          sp.getD (sp.length - 1 - j) "" = mp.getD (mp.length - 1 - j) "") ∧
        (k < sp.length → k < mp.length →
          sp.getD (sp.length - 1 - k) "" ≠ mp.getD (mp.length - 1 - k) "") ∧
        extractMirrorURLLoop sp mp steps i u = mp.take (mp.length - k) := by
  intro steps
  induction steps with
  | zero =>
    intro i u hsteps hi hu
    refine ⟨i, le_refl _, hi, by omega, ?_, ?_, ?_⟩
    · intro j h1 h2; omega
    · intro _ h2; omega
    · simp only [extractMirrorURLLoop]; exact hu
  | succ steps ih =>
    intro i u hsteps hi hu
    simp only [extractMirrorURLLoop]
    by_cases hguard : i < sp.length ∧ i < mp.length
    · rw [if_pos hguard]
      by_cases hne : sp.getD (sp.length - 1 - i) "" ≠ mp.getD (mp.length - 1 - i) ""
      · rw [if_pos hne]
        refine ⟨i, le_refl _, hi, by omega, ?_, ?_, hu⟩
        · intro j h1 h2; omega
        · intro _ _; exact hne
      · rw [if_neg hne]
        have heq := not_not.mp hne
        have hu2 : u.take (u.length - 1) = mp.take (mp.length - (i + 1)) := by
          rw [hu, take_take_pred mp _ (by omega)]
          congr 1
        obtain ⟨k, hk1, hk2, hk3, hagree, hstop, hres⟩ :=
          ih (i + 1) (u.take (u.length - 1)) (by omega) (by omega) hu2
        refine ⟨k, by omega, hk2, hk3, ?_, hstop, hres⟩
        intro j h1 h2
        by_cases hj : j = i
        · rw [hj]; exact heq
        · exact hagree j (by omega) h2
    · rw [if_neg hguard]
      refine ⟨i, le_refl _, hi, by omega, ?_, ?_, hu⟩
      · intro j h1 h2; omega
      · intro h1 h2; exact absurd ⟨h1, h2⟩ hguard

theorem getD_of_suffix (c l : List String) (h : c <:+ l) (j : Nat) (hj : j < c.length) :
    l.getD (l.length - 1 - j) "" = c.getD (c.length - 1 - j) "" := by
  obtain ⟨t, rfl⟩ := h
  rw [List.getD_append_right _ _ _ _ (by simp only [List.length_append]; omega)]
  congr 1
  simp only [List.length_append]
  omega

theorem drop_eq_of_agree (sp mp : List String) (k : Nat) (hs : k ≤ sp.length)
    (hm : k ≤ mp.length)
    (h : ∀ j, j < k → sp.getD (sp.length - 1 - j) "" = mp.getD (mp.length - 1 - j) "") :
    sp.drop (sp.length - k) = mp.drop (mp.length - k) := by
  apply List.ext_getElem?
  intro n
  rw [List.getElem?_drop, List.getElem?_drop]
  by_cases hn : n < k
  · have h1 := h (k - 1 - n) (by omega)
    have e1 : sp.length - 1 - (k - 1 - n) = sp.length - k + n := by omega
    have e2 : mp.length - 1 - (k - 1 - n) = mp.length - k + n := by omega
    rw [e1, e2, List.getD_eq_getElem _ _ (by omega), List.getD_eq_getElem _ _ (by omega)] at h1
    rw [List.getElem?_eq_getElem (by omega), List.getElem?_eq_getElem (by omega), h1]
  · rw [List.getElem?_eq_none (by omega), List.getElem?_eq_none (by omega)]

/-- The segments `extractMirrorURL` keeps: the mirror segments are `lead ++ common`
with `common` the longest list that ends both the source segments and the mirror
segments, and the result is `lead` joined. -/
theorem extractMirrorURL_split (source mirror : String) :
    ∃ lead common : List String,
      stringsSplit mirror = lead ++ common ∧
      common <:+ stringsSplit source ∧
      (∀ c : List String, c <:+ stringsSplit source → c <:+ stringsSplit mirror →
        c.length ≤ common.length) ∧
      extractMirrorURL source mirror = stringsJoin lead := by
  obtain ⟨k, _, hk2, hk3, hagree, hstop, hres⟩ :=
    extractMirrorURLLoop_spec (stringsSplit source) (stringsSplit mirror)
      (stringsSplit mirror).length 0 (stringsSplit mirror) (by omega) (by omega) (by simp)
  refine ⟨(stringsSplit mirror).take ((stringsSplit mirror).length - k),
    (stringsSplit mirror).drop ((stringsSplit mirror).length - k),
    (List.take_append_drop _ _).symm, ?_, ?_, ?_⟩
  · rw [← drop_eq_of_agree _ _ k hk2 hk3 (fun j hj => hagree j (by omega) hj)]
    exact List.drop_suffix _ _
  · intro c hc1 hc2
    rw [List.length_drop]
    by_contra hlt
    have hlen1 := hc1.length_le
    have hlen2 := hc2.length_le
    have hkc : k < c.length := by omega
    have h1 := getD_of_suffix c _ hc1 k hkc
    have h2 := getD_of_suffix c _ hc2 k hkc
    exact hstop (by omega) (by omega) (h1.trans h2.symm)
  · unfold extractMirrorURL
    simp only
    rw [hres]

theorem stringsJoin_nil : stringsJoin [] = "" := by
  decide

/-- When the mirror segments end the source segments, nothing is kept. -/
theorem extractMirrorURL_of_suffix (source mirror : String)
    (h : stringsSplit mirror <:+ stringsSplit source) :
    extractMirrorURL source mirror = "" := by
  obtain ⟨lead, common, hsplit, _, hmax, hres⟩ := extractMirrorURL_split source mirror
  have hlen := hmax _ h (List.suffix_refl _)
  have hl : lead = [] := by
    have := congrArg List.length hsplit
    simp only [List.length_append] at this
    exact List.length_eq_zero.mp (by omega)
  rw [hres, hl, stringsJoin_nil]

/-! ## The first segment -/

theorem splitOn_head (xs : List Char) :
    ∃ hd tl, xs.splitOn imagePathSeparator = hd :: tl ∧ imagePathSeparator ∉ hd ∧
      ((tl = [] ∧ xs = hd) ∨ ∃ r, xs = hd ++ imagePathSeparator :: r) := by
  induction xs with
  | nil => exact ⟨[], [], rfl, by simp, Or.inl ⟨rfl, rfl⟩⟩
  | cons x xs ih =>
    obtain ⟨hd, tl, hsplit, hnot, hrest⟩ := ih
    unfold List.splitOn at hsplit ⊢
    rw [List.splitOnP_cons]
    by_cases hx : (x == imagePathSeparator) = true
    · rw [if_pos hx]
      have hxe : x = imagePathSeparator := by simpa using hx
      exact ⟨[], _, rfl, by simp, Or.inr ⟨xs, by rw [hxe]; rfl⟩⟩
    · rw [if_neg hx, hsplit]
      have hxe : x ≠ imagePathSeparator := by simpa using hx
      refine ⟨x :: hd, tl, rfl, ?_, ?_⟩
      · intro hmem
        rcases List.mem_cons.mp hmem with h | h
        · exact hxe h.symm
        · exact hnot h
      · rcases hrest with ⟨h1, h2⟩ | ⟨r, h⟩
        · exact Or.inl ⟨h1, by rw [h2]⟩
        · exact Or.inr ⟨r, by rw [h]; rfl⟩

/-- The split of a string is its first segment followed by the other segments;
the first segment has no separator and the string is it, or it followed by a
separator and more. -/
theorem stringsSplit_head (s : String) :
    ∃ tl, stringsSplit s = extractHostname s :: tl ∧
      imagePathSeparator ∉ (extractHostname s).data ∧
      ((tl = [] ∧ s.data = (extractHostname s).data) ∨
        ∃ r, s.data = (extractHostname s).data ++ imagePathSeparator :: r) := by
  obtain ⟨hd, tl, hsplit, hnot, hrest⟩ := splitOn_head s.data
  have hs : stringsSplit s = String.mk hd :: tl.map String.mk := by
    unfold stringsSplit
    rw [hsplit]
    rfl
  have hh : extractHostname s = String.mk hd := by
    unfold extractHostname
    simp only [hs, List.headD_cons]
  refine ⟨tl.map String.mk, by rw [hh]; exact hs, by rw [hh]; exact hnot, ?_⟩
  rw [hh]
  rcases hrest with ⟨h1, h2⟩ | ⟨r, h⟩
  · exact Or.inl ⟨by rw [h1]; rfl, h2⟩
  · exact Or.inr ⟨r, h⟩

/-! ## The run-time checks never fail -/

theorem indexAt_of_lt {α : Type} (xs : List α) (n : Nat) (h : n < xs.length) :
    indexAt xs (n : Int) = some xs[n] := by
  unfold indexAt
  rw [if_pos ⟨by omega, by omega⟩]
  simp [List.getElem?_eq_getElem h]

theorem indexAt_zero_cons {α : Type} (a : α) (l : List α) : indexAt (a :: l) 0 = some a := by
  have h := indexAt_of_lt (a :: l) 0 (by simp)
  simpa using h

theorem indexAt_from_end (xs : List String) (i : Nat) (h : i < xs.length) :
    indexAt xs ((xs.length : Int) - 1 - (i : Int)) =
      some (xs.getD (xs.length - 1 - i) "") := by
  have e : ((xs.length : Int) - 1 - (i : Int)) = ((xs.length - 1 - i : Nat) : Int) := by
    omega
  rw [e, indexAt_of_lt xs _ (by omega), List.getD_eq_getElem _ _ (by omega)]

theorem sliceTo_pred {α : Type} (xs : List α) (h : 0 < xs.length) :
    sliceTo xs ((xs.length : Int) - 1) = some (xs.take (xs.length - 1)) := by
  unfold sliceTo
  rw [if_pos ⟨by omega, by omega⟩]
  congr 2
  omega

theorem extractMirrorURLLoopChecked_eq (sp mp : List String) :
    ∀ (steps i : Nat) (u : List String), u.length + i = mp.length →
      extractMirrorURLLoopChecked sp mp steps i u =
        some (extractMirrorURLLoop sp mp steps i u) := by
  intro steps
  induction steps with
  | zero => intro i u _; rfl
  | succ steps ih =>
    intro i u hu
    simp only [extractMirrorURLLoopChecked, extractMirrorURLLoop]
    by_cases hguard : i < sp.length ∧ i < mp.length
    · rw [if_pos hguard, if_pos hguard, indexAt_from_end sp i hguard.1,
        indexAt_from_end mp i hguard.2]
      simp only
      by_cases hne : sp.getD (sp.length - 1 - i) "" ≠ mp.getD (mp.length - 1 - i) ""
      · rw [if_pos hne, if_pos hne]
      · rw [if_neg hne, if_neg hne, sliceTo_pred u (by omega)]
        simp only
        apply ih
        rw [List.length_take]
        omega
    · rw [if_neg hguard, if_neg hguard]

theorem extractMirrorURLChecked_eq (source mirror : String) :
    extractMirrorURLChecked source mirror = some (extractMirrorURL source mirror) := by
  unfold extractMirrorURLChecked extractMirrorURL
  simp only
  rw [extractMirrorURLLoopChecked_eq _ _ _ _ _ (by omega)]
  rfl

theorem extractHostnameChecked_eq (fullImage : String) :
    extractHostnameChecked fullImage = some (extractHostname fullImage) := by
  obtain ⟨tl, hs, _, _⟩ := stringsSplit_head fullImage
  unfold extractHostnameChecked
  simp only
  rw [hs, indexAt_zero_cons]

theorem generateConfigChecked_eq (ms : mirrorSet) :
    generateConfigChecked ms = some (generateConfig ms) := by
  unfold generateConfigChecked generateConfig
  cases hm : ms.mirrors with
  | nil => simp
  | cons first rest =>
    simp only [List.length_cons, Nat.add_one_ne_zero, if_false]
    by_cases hp : ms.mirrorSourcePolicy = NeverContactSource
    · simp only [hp, if_true, indexAt_zero_cons, Option.map_some']
    · simp only [hp, if_false]

/-! ## The claims on the normaliser -/

/-- C11: `extractMirrorURL` returns the segments of the mirror without their
longest trailing run that is also a trailing run of the segments of the source,
joined with the separator; so `registry.io/a/b/img`, `mirror.io/a/b/img` gives
`mirror.io` and `registry.io/a/b/img`, `mirror.io/x/img` gives `mirror.io/x`. -/
theorem extractMirrorURL_drops_longest_common_suffix :
    (∀ source mirror : String, ∃ lead common : List String,
      stringsSplit mirror = lead ++ common ∧
      common <:+ stringsSplit source ∧
      (∀ c : List String, c <:+ stringsSplit source → c <:+ stringsSplit mirror →
        c.length ≤ common.length) ∧
      extractMirrorURL source mirror = stringsJoin lead) ∧
    extractMirrorURL "registry.io/a/b/img" "mirror.io/a/b/img" = "mirror.io" ∧
    extractMirrorURL "registry.io/a/b/img" "mirror.io/x/img" = "mirror.io/x" :=
  ⟨extractMirrorURL_split, by decide, by decide⟩

/-- C12: for a mirror image equal to the source image `newMirror` takes the host
from `extractHostname`, the first segment of the image, where `extractMirrorURL`
would give the empty string; for a mirror image different from the source image
it takes the host from `extractMirrorURL`. Both keep `resolveTags`. -/
theorem newMirror_host :
    (∀ (s : String) (r : Bool),
      newMirror s s r = ⟨extractHostname s, r⟩ ∧
      (∃ tl, stringsSplit s = extractHostname s :: tl) ∧
      extractMirrorURL s s = "") ∧
    (∀ (s m : String) (r : Bool), s ≠ m → newMirror s m r = ⟨extractMirrorURL s m, r⟩) := by
  constructor
  · intro s r
    refine ⟨?_, ?_, extractMirrorURL_of_suffix s s (List.suffix_refl _)⟩
    · unfold newMirror
      simp
    · obtain ⟨tl, h, _⟩ := stringsSplit_head s
      exact ⟨tl, h⟩
  · intro s m r h
    unfold newMirror
    simp [h]

/-- C12 at `r.io/a` mirrored by itself and by `m.io/a`. -/
theorem newMirror_host_witness :
    newMirror "r.io/a" "r.io/a" true = ⟨"r.io", true⟩ ∧
    newMirror "r.io/a" "m.io/a" false = ⟨"m.io", false⟩ := by
  have h1 := (newMirror_host.1 "r.io/a" true).1
  have h2 := newMirror_host.2 "r.io/a" "m.io/a" false (by decide)
  have e1 : extractHostname "r.io/a" = "r.io" := by decide
  have e2 : extractMirrorURL "r.io/a" "m.io/a" = "m.io" := by decide
  rw [e1] at h1
  rw [e2] at h2
  exact ⟨h1, h2⟩

/-- C13: `extractHostname` returns the part of the image before its first `/`:
it has no `/`, the image is it followed by nothing or by a `/` and more, and it
is the whole image when the image has no `/`. -/
theorem extractHostname_before_first_separator :
    (∀ image : String,
      '/' ∉ (extractHostname image).data ∧
      (∃ rest : List Char, image.data = (extractHostname image).data ++ rest ∧
        (rest = [] ∨ rest.head? = some '/')) ∧
      ('/' ∉ image.data → extractHostname image = image)) ∧
    extractHostname "mcr.microsoft.com/oss/kubernetes/pause:3.9" = "mcr.microsoft.com" := by
  refine ⟨?_, by decide⟩
  intro image
  obtain ⟨tl, _, hnot, hrest⟩ := stringsSplit_head image
  refine ⟨hnot, ?_, ?_⟩
  · rcases hrest with ⟨_, h⟩ | ⟨r, h⟩
    · exact ⟨[], by rw [List.append_nil]; exact h, Or.inl rfl⟩
    · exact ⟨imagePathSeparator :: r, h, Or.inr rfl⟩
  · intro hno
    rcases hrest with ⟨_, h⟩ | ⟨r, h⟩
    · exact (String.ext_iff.mpr h).symm
    · exfalso
      apply hno
      rw [h]
      exact List.mem_append_right _ (List.mem_cons_self _ _)

/-- C13 at a bare host name. -/
theorem extractHostname_before_first_separator_witness :
    '/' ∉ ("localhost:5000" : String).data ∧ extractHostname "localhost:5000" = "localhost:5000" :=
  ⟨by decide, (extractHostname_before_first_separator.1 "localhost:5000").2.2 (by decide)⟩

/-- C16: no index and no slice bound of `extractMirrorURL` is out of range, the
first segment read by `extractHostname` exists, and `generateConfig` reads
`mirrors[0]` only when there is one: with the run-time checks in place each of the
three returns, for every input, the value it returns without them. -/
theorem normaliser_and_serialiser_never_fail :
    (∀ source mirror : String,
      extractMirrorURLChecked source mirror = some (extractMirrorURL source mirror)) ∧
    (∀ fullImage : String,
      extractHostnameChecked fullImage = some (extractHostname fullImage)) ∧
    (∀ ms : mirrorSet, generateConfigChecked ms = some (generateConfig ms)) ∧
    extractMirrorURLChecked "" "" = some "" ∧
    extractMirrorURLChecked "/a//b/" "//b/" = some "" ∧
    extractMirrorURLChecked "a" "/x//a" = some "/x/" ∧
    extractHostnameChecked "" = some "" ∧
    extractHostnameChecked "/a" = some "" ∧
    generateConfigChecked ⟨"s.io", [], NeverContactSource⟩ = some "" :=
  ⟨extractMirrorURLChecked_eq, extractHostnameChecked_eq, generateConfigChecked_eq,
    by decide, by decide, by decide, by decide, by decide, by decide⟩

/-- C20: when the segments of the mirror end the segments of the source,
`extractMirrorURL` returns the empty string; so `newMirror` gives the mirror
`ns/img` of the source `r.io/ns/img` an empty host, its special case covering
only a mirror equal to the source. -/
theorem extractMirrorURL_empty_of_suffix :
    (∀ source mirror : String, stringsSplit mirror <:+ stringsSplit source →
      extractMirrorURL source mirror = "") ∧
    (∃ source mirror : String, source ≠ mirror ∧ mirror ≠ "" ∧
      ∀ r : Bool, newMirror source mirror r = ⟨"", r⟩) := by
  refine ⟨extractMirrorURL_of_suffix, "r.io/ns/img", "ns/img", by decide, by decide, ?_⟩
  intro r
  cases r <;> decide

/-- C20 at the source `r.io/ns/img` and the mirror `ns/img`. -/
theorem extractMirrorURL_empty_of_suffix_witness :
    stringsSplit "ns/img" <:+ stringsSplit "r.io/ns/img" ∧
    extractMirrorURL "r.io/ns/img" "ns/img" = "" :=
  ⟨⟨["r.io"], by decide⟩,
   extractMirrorURL_empty_of_suffix.1 "r.io/ns/img" "ns/img" ⟨["r.io"], by decide⟩⟩

/-! ## Where the mirrors and the policy of a merged set come from -/

/-- Every mirror held for a source is a mirror of an input set of that source. -/
theorem uniqueMirrorSets_mirror_from (ro : RangeOrder) (l : List mirrorSet) :
    ∀ p ∈ uniqueMirrorSets ro l, ∀ y ∈ p.2.mirrors,
      ∃ ms ∈ l, ms.source = p.1 ∧ y ∈ ms.mirrors := by
  induction l using List.reverseRecOn with
  | nil => simp [uniqueMirrorSets]
  | append_singleton l x ih =>
    intro p hp y hy
    rw [uniqueMirrorSets_snoc] at hp
    rcases (mem_mapSet _ _ _ p).mp hp with rfl | ⟨_, hp⟩
    · dsimp only at hy ⊢
      cases hget : mapGet (uniqueMirrorSets ro l) x.source with
      | none =>
        rw [mergedSet_none ro _ x hget] at hy
        exact ⟨x, by simp, rfl, hy⟩
      | some ex =>
        rw [mergedSet_mirrors ro _ x ex hget] at hy
        rcases mergeMirrors_mem ro _ _ y hy with h | h
        · obtain ⟨ms, hms, hsrc, hmem⟩ := ih (x.source, ex) (mapGet_some _ _ _ hget) y h
          exact ⟨ms, List.mem_append_left _ hms, hsrc, hmem⟩
        · exact ⟨x, by simp, rfl, h⟩
    · obtain ⟨ms, hms, hsrc, hmem⟩ := ih p hp y hy
      exact ⟨ms, List.mem_append_left _ hms, hsrc, hmem⟩

theorem find?_filter_snoc_ne (l : List mirrorSet) (x : mirrorSet) (s : String)
    (h : x.source ≠ s) : firstRestrictingPolicy (l ++ [x]) s = firstRestrictingPolicy l s := by
  unfold firstRestrictingPolicy
  rw [List.filter_append]
  simp [h]

theorem firstRestrictingPolicy_snoc (l : List mirrorSet) (x : mirrorSet) :
    firstRestrictingPolicy (l ++ [x]) x.source =
      if firstRestrictingPolicy l x.source = AllowContactingSource then x.mirrorSourcePolicy
      else firstRestrictingPolicy l x.source := by
  unfold firstRestrictingPolicy
  rw [List.filter_append, List.find?_append]
  cases hf : (List.filter (fun ms => decide (ms.source = x.source)) l).find?
      (fun ms => decide (ms.mirrorSourcePolicy ≠ AllowContactingSource)) with
  | some ms =>
    have hms := List.find?_some hf
    simp only [ne_eq, decide_not, Bool.not_eq_true', decide_eq_false_iff_not] at hms
    simp [hms]
  | none =>
    by_cases hx : x.mirrorSourcePolicy = AllowContactingSource
    · simp [hx]
    · simp [hx]

theorem firstRestrictingPolicy_fresh (l : List mirrorSet) (s : String)
    (h : ∀ ms ∈ l, ms.source ≠ s) : firstRestrictingPolicy l s = AllowContactingSource := by
  unfold firstRestrictingPolicy
  have : l.filter (fun ms => decide (ms.source = s)) = [] := by
    rw [List.filter_eq_nil_iff]
    intro ms hms
    simpa using h ms hms
  rw [this]
  rfl

/-- The policy held for a source is that of the first input set of the source
whose policy is not `AllowContactingSource`, and `AllowContactingSource` when
there is none. -/
theorem uniqueMirrorSets_policy_eq (ro : RangeOrder) (l : List mirrorSet) :
    ∀ p ∈ uniqueMirrorSets ro l, p.2.mirrorSourcePolicy = firstRestrictingPolicy l p.1 := by
  induction l using List.reverseRecOn with
  | nil => simp [uniqueMirrorSets]
  | append_singleton l x ih =>
    intro p hp
    rw [uniqueMirrorSets_snoc] at hp
    rcases (mem_mapSet _ _ _ p).mp hp with rfl | ⟨hne, hp⟩
    · dsimp only
      rw [firstRestrictingPolicy_snoc]
      cases hget : mapGet (uniqueMirrorSets ro l) x.source with
      | none =>
        rw [mergedSet_none ro _ x hget,
          firstRestrictingPolicy_fresh l x.source (mapGet_none_fresh ro l x hget), if_pos rfl]
      | some ex =>
        rw [mergedSet_policy ro _ x ex hget]
        have := ih (x.source, ex) (mapGet_some _ _ _ hget)
        dsimp only at this
        rw [this]
    · rw [find?_filter_snoc_ne l x p.1 (fun h => hne h.symm)]
      exact ih p hp

/-! ## Hosts that only one side of `mergeMirrors` has -/

theorem mergeMirrorsStep_keeps_entry (u : List (String × mirror)) (m : mirror)
    (p : String × mirror) (hne : m.host ≠ p.1) (hp : p ∈ u) : p ∈ mergeMirrorsStep u m := by
  unfold mergeMirrorsStep
  split
  · split
    · exact (mem_mapSet u m.host m p).mpr (Or.inr ⟨fun h => hne h.symm, hp⟩)
    · exact hp
  · exact (mem_mapSet u m.host m p).mpr (Or.inr ⟨fun h => hne h.symm, hp⟩)

theorem foldl_step_keeps_entry (n : List mirror) (u : List (String × mirror))
    (p : String × mirror) (hne : ∀ y ∈ n, y.host ≠ p.1) (hp : p ∈ u) :
    p ∈ n.foldl mergeMirrorsStep u := by
  induction n generalizing u with
  | nil => exact hp
  | cons m rest ih =>
    exact ih _ (fun y hy => hne y (List.mem_cons_of_mem _ hy))
      (mergeMirrorsStep_keeps_entry u m p (hne m (List.mem_cons_self _ _)) hp)

theorem mergeMirrors_keeps_existing (ro : RangeOrder) (e n : List mirror) (x : mirror)
    (hx : x ∈ e) (hone : ∀ y ∈ e, y.host = x.host → y = x) (hnot : ∀ y ∈ n, y.host ≠ x.host) :
    x ∈ mergeMirrors ro e n := by
  rw [mem_mergeMirrors]
  unfold uniqueMirrors
  apply foldl_step_keeps_entry n _ _ hnot
  obtain ⟨q, hq, hqk⟩ := foldl_set_has_key e [] x hx
  rcases foldl_set_mem e [] q hq with h | ⟨h1, h2⟩
  · simp at h
  · have hq2 : q.2 = x := hone q.2 h1 (h2.symm.trans hqk)
    have : q = (x.host, x) := Prod.ext hqk hq2
    rw [← this]
    exact hq

theorem mergeMirrors_keeps_new (ro : RangeOrder) (e n : List mirror) (x : mirror)
    (hx : x ∈ n) (hone : ∀ y ∈ n, y.host = x.host → y = x) (hnot : ∀ y ∈ e, y.host ≠ x.host) :
    x ∈ mergeMirrors ro e n := by
  rw [mem_mergeMirrors]
  unfold uniqueMirrors
  obtain ⟨q, hq, hqk⟩ := foldl_step_has_key n (e.foldl (fun u m => mapSet u m.host m) []) x hx
  rcases foldl_step_mem n _ q hq with h | ⟨h1, h2⟩
  · rcases foldl_set_mem e [] q h with h | ⟨h1, h2⟩
    · simp at h
    · exact absurd (h2.symm.trans hqk) (hnot q.2 h1)
  · have hq2 : q.2 = x := hone q.2 h1 (h2.symm.trans hqk)
    have : q = (x.host, x) := Prod.ext hqk hq2
    rw [← this]
    exact hq

theorem mergeMirrors_unique_of_host (ro : RangeOrder) (e n : List mirror) (x y : mirror)
    (hx : x ∈ mergeMirrors ro e n) (hy : y ∈ mergeMirrors ro e n) (h : y.host = x.host) :
    y = x := by
  rw [mem_mergeMirrors] at hx hy
  rw [h] at hy
  exact nodup_keys_unique _ (uniqueMirrors_ok e n).1 x.host y x hy hx

theorem mergeMirrors_host_iff (ro : RangeOrder) (e n : List mirror) (h : String) :
    h ∈ (mergeMirrors ro e n).map mirror.host ↔
      h ∈ e.map mirror.host ∨ h ∈ n.map mirror.host := by
  simp only [List.mem_map]
  constructor
  · rintro ⟨y, hy, rfl⟩
    rcases mergeMirrors_mem ro e n y hy with h1 | h1
    · exact Or.inl ⟨y, h1, rfl⟩
    · exact Or.inr ⟨y, h1, rfl⟩
  · rintro (⟨x, hx, rfl⟩ | ⟨x, hx, rfl⟩)
    · exact mergeMirrors_has_host ro e n x (Or.inl hx)
    · exact mergeMirrors_has_host ro e n x (Or.inr hx)

/-! ## The claims on the merger -/

/-- C14: in the result of `NewRegistryConfig` a mirror has `resolveTags = true`
only if some tag entry of the source of its set lists a mirror image of its host;
so with no tag policies every mirror has `resolveTags = false`. -/
theorem NewRegistryConfig_resolveTags_only_from_tag_entry (ro : RangeOrder)
    (idmsItems : List ImageDigestMirrorSet) (idtsItems : List ImageTagMirrorSet)
    (S : mirrorSet) (hS : S ∈ NewRegistryConfig ro idmsItems idtsItems)
    (m : mirror) (hm : m ∈ S.mirrors) :
    (m.resolveTags = true →
      ∃ itms ∈ idtsItems, ∃ entry ∈ itms.Spec.ImageTagMirrors,
        extractHostname entry.Source = S.source ∧
          ∃ image ∈ entry.Mirrors, (newMirror entry.Source image true).host = m.host) ∧
    (idtsItems = [] → m.resolveTags = false) := by
  have main : m.resolveTags = true →
      ∃ itms ∈ idtsItems, ∃ entry ∈ itms.Spec.ImageTagMirrors,
        extractHostname entry.Source = S.source ∧
          ∃ image ∈ entry.Mirrors, (newMirror entry.Source image true).host = m.host := by
    intro hr
    unfold NewRegistryConfig at hS
    obtain ⟨p, hp, rfl⟩ := (mem_mergeMirrorSets ro _ S).mp hS
    have hsrc := (uniqueMirrorSets_ok ro _).2 p hp
    dsimp only at hm ⊢
    rw [(sortSlice_perm _ _).mem_iff] at hm
    obtain ⟨ms, hms, hmsrc, hmem⟩ := uniqueMirrorSets_mirror_from ro _ p hp m hm
    rw [allMirrorSets_eq] at hms
    simp only [List.mem_append, List.mem_flatMap, List.mem_map] at hms
    rcases hms with ⟨_, _, e, _, rfl⟩ | ⟨itms, hitms, e, he, rfl⟩
    · have := newMirrorSet_resolveTags _ _ _ _ m hmem
      rw [hr] at this
      exact absurd this (by decide)
    · refine ⟨itms, hitms, e, he, hmsrc.trans hsrc.symm, ?_⟩
      rw [newMirrorSet_mirrors] at hmem
      obtain ⟨image, himage, rfl⟩ := List.mem_map.mp hmem
      exact ⟨image, himage, rfl⟩
  refine ⟨main, ?_⟩
  intro hempty
  cases hr : m.resolveTags with
  | false => rfl
  | true =>
    obtain ⟨itms, hitms, _⟩ := main hr
    rw [hempty] at hitms
    simp at hitms

/-- C14 at one digest entry and one tag entry of the same source: the mirror that
resolves tags is the one the tag entry lists. -/
theorem NewRegistryConfig_resolveTags_only_from_tag_entry_witness :
    (⟨"r.io", [⟨"d.io", false⟩, ⟨"t.io", true⟩], AllowContactingSource⟩ : mirrorSet) ∈
      NewRegistryConfig RangeOrder.reversed
        [⟨⟨[⟨"r.io/a", ["d.io/a"], AllowContactingSource⟩]⟩⟩]
        [⟨⟨[⟨"r.io/a", ["t.io/a"], AllowContactingSource⟩]⟩⟩] ∧
    ∃ itms ∈ ([⟨⟨[⟨"r.io/a", ["t.io/a"], AllowContactingSource⟩]⟩⟩] : List ImageTagMirrorSet),
      ∃ entry ∈ itms.Spec.ImageTagMirrors,
        extractHostname entry.Source = "r.io" ∧
          ∃ image ∈ entry.Mirrors, (newMirror entry.Source image true).host = "t.io" :=
  ⟨by decide,
   (NewRegistryConfig_resolveTags_only_from_tag_entry RangeOrder.reversed
    [⟨⟨[⟨"r.io/a", ["d.io/a"], AllowContactingSource⟩]⟩⟩]
    [⟨⟨[⟨"r.io/a", ["t.io/a"], AllowContactingSource⟩]⟩⟩]
    ⟨"r.io", [⟨"d.io", false⟩, ⟨"t.io", true⟩], AllowContactingSource⟩ (by decide)
    ⟨"t.io", true⟩ (by decide)).1 rfl⟩

set_option maxRecDepth 8000 in
/-- C15: the literal example, end to end: no digest policy and the one tag entry
with source `registry.example.com/ns/img`, mirror `mirror.example.com/ns/img` and
`AllowContactingSource` give exactly one set, and its text is the block of the
example, whatever order `range` takes. -/
theorem NewRegistryConfig_literal_example (ro : RangeOrder) :
    NewRegistryConfig ro []
        [⟨⟨[⟨"registry.example.com/ns/img", ["mirror.example.com/ns/img"],
            AllowContactingSource⟩]⟩⟩] =
      [⟨"registry.example.com", [⟨"mirror.example.com", true⟩], AllowContactingSource⟩] ∧
    generateConfig
        ⟨"registry.example.com", [⟨"mirror.example.com", true⟩], AllowContactingSource⟩ =
      "server = \"https://registry.example.com\"\r\n" ++
      "\r\n" ++
      "[host.\"https://mirror.example.com\"]\r\n" ++
      "  capabilities = [\"pull\", \"resolve\"]\r\n" := by
  refine ⟨?_, by decide⟩
  unfold NewRegistryConfig
  have h : allMirrorSets []
      [⟨⟨[⟨"registry.example.com/ns/img", ["mirror.example.com/ns/img"],
          AllowContactingSource⟩]⟩⟩] =
      [⟨"registry.example.com", [⟨"mirror.example.com", true⟩], AllowContactingSource⟩] := by
    decide
  rw [h, mergeMirrorSets_singleton]
  have hs : sortSlice (fun a b => stringLess a.host b.host)
      ([⟨"mirror.example.com", true⟩] : List mirror) = [⟨"mirror.example.com", true⟩] := by
    decide
  rw [hs]

/-- C18: the result of `mergeMirrors` has pairwise distinct hosts, its hosts are
those of the existing mirrors and those of the new mirrors, and a mirror whose
host no other mirror of its side has (unless equal to it) and no mirror of the
other side has is in the result, alone with its host, so with its `resolveTags`. -/
theorem mergeMirrors_hosts (ro : RangeOrder) (existingMirrors newMirrors : List mirror) :
    ((mergeMirrors ro existingMirrors newMirrors).map mirror.host).Nodup ∧
    (∀ h : String, h ∈ (mergeMirrors ro existingMirrors newMirrors).map mirror.host ↔
      h ∈ existingMirrors.map mirror.host ∨ h ∈ newMirrors.map mirror.host) ∧
    (∀ x ∈ existingMirrors, (∀ y ∈ existingMirrors, y.host = x.host → y = x) →
      (∀ y ∈ newMirrors, y.host ≠ x.host) →
      x ∈ mergeMirrors ro existingMirrors newMirrors ∧
        ∀ y ∈ mergeMirrors ro existingMirrors newMirrors, y.host = x.host →
          y.resolveTags = x.resolveTags) ∧
    (∀ x ∈ newMirrors, (∀ y ∈ newMirrors, y.host = x.host → y = x) →
      (∀ y ∈ existingMirrors, y.host ≠ x.host) →
      x ∈ mergeMirrors ro existingMirrors newMirrors ∧
        ∀ y ∈ mergeMirrors ro existingMirrors newMirrors, y.host = x.host →
          y.resolveTags = x.resolveTags) := by
  refine ⟨mergeMirrors_nodup ro _ _, mergeMirrors_host_iff ro _ _, ?_, ?_⟩
  · intro x hx hone hnot
    have hin := mergeMirrors_keeps_existing ro _ _ x hx hone hnot
    exact ⟨hin, fun y hy h => by rw [mergeMirrors_unique_of_host ro _ _ x y hin hy h]⟩
  · intro x hx hone hnot
    have hin := mergeMirrors_keeps_new ro _ _ x hx hone hnot
    exact ⟨hin, fun y hy h => by rw [mergeMirrors_unique_of_host ro _ _ x y hin hy h]⟩

/-- C18 at lists with a host repeated inside the existing mirrors and a host on
both sides: `b.io`, only among the new mirrors and once, keeps its `resolveTags`. -/
theorem mergeMirrors_hosts_witness :
    mergeMirrors RangeOrder.insertion
        [⟨"a.io", false⟩, ⟨"a.io", true⟩, ⟨"c.io", false⟩] [⟨"c.io", true⟩, ⟨"b.io", true⟩] =
      [⟨"a.io", true⟩, ⟨"c.io", true⟩, ⟨"b.io", true⟩] ∧
    (⟨"b.io", true⟩ : mirror) ∈ mergeMirrors RangeOrder.insertion
        [⟨"a.io", false⟩, ⟨"a.io", true⟩, ⟨"c.io", false⟩] [⟨"c.io", true⟩, ⟨"b.io", true⟩] :=
  ⟨by decide,
   ((mergeMirrors_hosts RangeOrder.insertion
      [⟨"a.io", false⟩, ⟨"a.io", true⟩, ⟨"c.io", false⟩]
      [⟨"c.io", true⟩, ⟨"b.io", true⟩]).2.2.2 ⟨"b.io", true⟩ (by decide) (by decide)
      (by decide)).1⟩

/-- C19: the policy of a set returned by `mergeMirrorSets` is the policy of the first
input set of its source, in input order, whose policy is not
`AllowContactingSource`, and `AllowContactingSource` when there is none; and every
source of the input has its set in the result. -/
theorem mergeMirrorSets_policy_first_restricting (ro : RangeOrder) (l : List mirrorSet) :
    (∀ S ∈ mergeMirrorSets ro l,
      S.mirrorSourcePolicy = firstRestrictingPolicy l S.source) ∧
    (∀ ms ∈ l, ∃ S ∈ mergeMirrorSets ro l, S.source = ms.source) := by
  constructor
  · intro S hS
    obtain ⟨p, hp, rfl⟩ := (mem_mergeMirrorSets ro l S).mp hS
    have hsrc := (uniqueMirrorSets_ok ro l).2 p hp
    dsimp only
    rw [hsrc]
    exact uniqueMirrorSets_policy_eq ro l p hp
  · intro ms hms
    obtain ⟨p, hp, hpk⟩ := uniqueMirrorSets_has_key ro l ms hms
    have hsrc := (uniqueMirrorSets_ok ro l).2 p hp
    exact ⟨_, (mem_mergeMirrorSets ro l _).mpr ⟨p, hp, rfl⟩, hsrc.trans hpk⟩

/-- C19 at an unset policy followed by `NeverContactSource`: the unset policy is
kept. -/
theorem mergeMirrorSets_policy_first_restricting_witness :
    (⟨"s.io", [⟨"m.io", false⟩], ""⟩ : mirrorSet) ∈
      mergeMirrorSets RangeOrder.insertion
        [⟨"s.io", [⟨"m.io", false⟩], ""⟩, ⟨"s.io", [⟨"m.io", false⟩], NeverContactSource⟩] ∧
    firstRestrictingPolicy
        [⟨"s.io", [⟨"m.io", false⟩], ""⟩, ⟨"s.io", [⟨"m.io", false⟩], NeverContactSource⟩]
        "s.io" = "" ∧
    (⟨"s.io", [⟨"m.io", false⟩], ""⟩ : mirrorSet).mirrorSourcePolicy =
      firstRestrictingPolicy
        [⟨"s.io", [⟨"m.io", false⟩], ""⟩, ⟨"s.io", [⟨"m.io", false⟩], NeverContactSource⟩]
        "s.io" :=
  ⟨by decide, by decide,
   (mergeMirrorSets_policy_first_restricting RangeOrder.insertion
    [⟨"s.io", [⟨"m.io", false⟩], ""⟩, ⟨"s.io", [⟨"m.io", false⟩], NeverContactSource⟩]).1
    ⟨"s.io", [⟨"m.io", false⟩], ""⟩ (by decide)⟩

/-! ## Nothing lost, nothing invented -/

/-- Every host of a mirror of an input set is held for the source of that set. -/
theorem uniqueMirrorSets_keeps_host (ro : RangeOrder) (l : List mirrorSet) :
    ∀ p ∈ uniqueMirrorSets ro l, ∀ ms ∈ l, ms.source = p.1 → ∀ m ∈ ms.mirrors,
      ∃ y ∈ p.2.mirrors, y.host = m.host := by
  induction l using List.reverseRecOn with
  | nil => simp [uniqueMirrorSets]
  | append_singleton l x ih =>
    intro p hp ms hms hsrc m hm
    rw [uniqueMirrorSets_snoc] at hp
    rcases (mem_mapSet _ _ _ p).mp hp with rfl | ⟨hne, hp⟩
    · dsimp only at hsrc ⊢
      cases hget : mapGet (uniqueMirrorSets ro l) x.source with
      | none =>
        rw [mergedSet_none ro _ x hget]
        rcases List.mem_append.mp hms with h | h
        · exact absurd hsrc (mapGet_none_fresh ro l x hget ms h)
        · rw [List.mem_singleton.mp h] at hm
          exact ⟨m, hm, rfl⟩
      | some ex =>
        rw [mergedSet_mirrors ro _ x ex hget]
        rcases List.mem_append.mp hms with h | h
        · obtain ⟨y0, hy0, hy0h⟩ := ih (x.source, ex) (mapGet_some _ _ _ hget) ms h hsrc m hm
          obtain ⟨y, hy, hyh⟩ := mergeMirrors_has_host ro ex.mirrors x.mirrors y0 (Or.inl hy0)
          exact ⟨y, hy, hyh.trans hy0h⟩
        · rw [List.mem_singleton.mp h] at hm
          exact mergeMirrors_has_host ro ex.mirrors x.mirrors m (Or.inr hm)
    · rcases List.mem_append.mp hms with h | h
      · exact ih p hp ms h hsrc m hm
      · rw [List.mem_singleton.mp h] at hsrc
        exact absurd hsrc hne.symm

/-- C21: `mergeMirrorSets` neither loses nor invents sources or mirrors: the
sources of the output are the sources of the input, and the hosts of an output
set are the hosts of the mirrors of the input sets of its source. -/
theorem mergeMirrorSets_same_sources_and_hosts (ro : RangeOrder) (l : List mirrorSet) :
    (∀ s : String, s ∈ (mergeMirrorSets ro l).map mirrorSet.source ↔
      s ∈ l.map mirrorSet.source) ∧
    (∀ S ∈ mergeMirrorSets ro l, ∀ h : String,
      h ∈ S.mirrors.map mirror.host ↔
        ∃ ms ∈ l, ms.source = S.source ∧ h ∈ ms.mirrors.map mirror.host) := by
  constructor
  · intro s
    simp only [List.mem_map]
    constructor
    · rintro ⟨S, hS, rfl⟩
      obtain ⟨p, hp, rfl⟩ := (mem_mergeMirrorSets ro l S).mp hS
      have hsrc := (uniqueMirrorSets_ok ro l).2 p hp
      obtain ⟨ms, hms, h⟩ := uniqueMirrorSets_key_from ro l p hp
      exact ⟨ms, hms, h.trans hsrc.symm⟩
    · rintro ⟨ms, hms, rfl⟩
      obtain ⟨p, hp, hpk⟩ := uniqueMirrorSets_has_key ro l ms hms
      have hsrc := (uniqueMirrorSets_ok ro l).2 p hp
      exact ⟨_, (mem_mergeMirrorSets ro l _).mpr ⟨p, hp, rfl⟩, hsrc.trans hpk⟩
  · intro S hS h
    obtain ⟨p, hp, rfl⟩ := (mem_mergeMirrorSets ro l S).mp hS
    have hsrc := (uniqueMirrorSets_ok ro l).2 p hp
    simp only [List.mem_map]
    constructor
    · rintro ⟨y, hy, rfl⟩
      rw [(sortSlice_perm _ _).mem_iff] at hy
      obtain ⟨ms, hms, hmsrc, hmem⟩ := uniqueMirrorSets_mirror_from ro l p hp y hy
      exact ⟨ms, hms, hmsrc.trans hsrc.symm, y, hmem, rfl⟩
    · rintro ⟨ms, hms, hmsrc, m, hm, rfl⟩
      obtain ⟨y, hy, hyh⟩ := uniqueMirrorSets_keeps_host ro l p hp ms hms
        (hmsrc.trans hsrc) m hm
      exact ⟨y, (sortSlice_perm _ _).mem_iff.mpr hy, hyh⟩

/-- C21 at two sets of source `s.io` and one of source `t.io`. -/
theorem mergeMirrorSets_same_sources_and_hosts_witness :
    (⟨"s.io", [⟨"a.io", true⟩, ⟨"b.io", false⟩], ""⟩ : mirrorSet) ∈
      mergeMirrorSets RangeOrder.reversed
        [⟨"s.io", [⟨"b.io", false⟩], ""⟩, ⟨"t.io", [⟨"c.io", false⟩], ""⟩,
         ⟨"s.io", [⟨"a.io", true⟩], ""⟩] ∧
    ("a.io" ∈ ([⟨"a.io", true⟩, ⟨"b.io", false⟩] : List mirror).map mirror.host ↔
      ∃ ms ∈ ([⟨"s.io", [⟨"b.io", false⟩], ""⟩, ⟨"t.io", [⟨"c.io", false⟩], ""⟩,
          ⟨"s.io", [⟨"a.io", true⟩], ""⟩] : List mirrorSet),
        ms.source = "s.io" ∧ "a.io" ∈ ms.mirrors.map mirror.host) :=
  ⟨by decide,
   (mergeMirrorSets_same_sources_and_hosts RangeOrder.reversed
    [⟨"s.io", [⟨"b.io", false⟩], ""⟩, ⟨"t.io", [⟨"c.io", false⟩], ""⟩,
     ⟨"s.io", [⟨"a.io", true⟩], ""⟩]).2
    ⟨"s.io", [⟨"a.io", true⟩, ⟨"b.io", false⟩], ""⟩ (by decide) "a.io"⟩

/-! ## Merging a merged list -/

theorem mapGet_of_fresh {V : Type} (m : List (String × V)) (k : String)
    (h : ∀ p ∈ m, p.1 ≠ k) : mapGet m k = none := by
  induction m with
  | nil => rfl
  | cons p rest ih =>
    obtain ⟨k0, v0⟩ := p
    simp only [mapGet]
    rw [if_neg (h (k0, v0) (List.mem_cons_self _ _))]
    exact ih (fun q hq => h q (List.mem_cons_of_mem _ hq))

theorem mapSet_of_fresh {V : Type} (m : List (String × V)) (k : String) (v : V)
    (h : ∀ p ∈ m, p.1 ≠ k) : mapSet m k v = m ++ [(k, v)] := by
  unfold mapSet
  rw [if_neg]
  intro hk
  obtain ⟨p, hp, hpk⟩ := List.mem_map.mp hk
  exact h p hp hpk

/-- Sets of pairwise distinct sources go into the map one entry each, in order. -/
theorem uniqueMirrorSets_of_nodup (ro : RangeOrder) (l : List mirrorSet)
    (h : (l.map mirrorSet.source).Nodup) :
    uniqueMirrorSets ro l = l.map (fun S => (S.source, S)) := by
  induction l using List.reverseRecOn with
  | nil => rfl
  | append_singleton l x ih =>
    rw [List.map_append, List.nodup_append] at h
    obtain ⟨h1, _, h3⟩ := h
    have hfresh : ∀ p ∈ l.map (fun S : mirrorSet => (S.source, S)), p.1 ≠ x.source := by
      intro p hp heq
      obtain ⟨S, hS, rfl⟩ := List.mem_map.mp hp
      exact h3 (List.mem_map.mpr ⟨S, hS, rfl⟩) (by simpa using heq)
    rw [uniqueMirrorSets_snoc, ih h1, mergedSet_none ro _ x (mapGet_of_fresh _ _ hfresh),
      mapSet_of_fresh _ _ _ hfresh]
    simp

theorem sortSlice_of_sorted (key : mirror → String) (xs : List mirror)
    (h : xs.Pairwise (fun a b => key a ≤ key b)) :
    sortSlice (fun a b => stringLess (key a) (key b)) xs = xs := by
  unfold sortSlice
  apply List.Sorted.insertionSort_eq
  exact h.imp (fun hab => (stringLess_eq_false_iff _ _).mpr hab)

/-- Sorting a rearrangement of a list that is strictly ascending by source, each
set with its mirrors ascending by host, gives that list back. -/
theorem sortMirrorSets_of_perm_sorted (P R : List mirrorSet) (hperm : P.Perm R)
    (hR : R.Pairwise (fun a b => a.source < b.source))
    (hmirrors : ∀ S ∈ R, S.mirrors.Pairwise (fun a b => a.host ≤ b.host)) :
    sortMirrorSets P = R := by
  unfold sortMirrorSets
  have hmap : P.map (fun ms : mirrorSet =>
      { ms with mirrors := sortSlice (fun a b => stringLess a.host b.host) ms.mirrors }) = P := by
    conv => rhs; rw [← List.map_id P]
    apply List.map_congr_left
    intro S hS
    have := sortSlice_of_sorted mirror.host S.mirrors (hmirrors S (hperm.mem_iff.mp hS))
    simp only [id, this]
  simp only [hmap]
  have hnodup : (R.map mirrorSet.source).Nodup := by
    have h2 : (R.map mirrorSet.source).Pairwise (· < ·) := List.pairwise_map.mpr hR
    exact h2.imp (fun hab => ne_of_lt hab)
  refine List.Perm.eq_of_sorted ?_ (sortSlice_pairwise mirrorSet.source P)
    (hR.imp (fun hab => le_of_lt hab)) ((sortSlice_perm _ P).trans hperm)
  intro a b ha hb hab hba
  have ha2 : a ∈ R := hperm.mem_iff.mp ((sortSlice_perm _ P).mem_iff.mp ha)
  exact List.inj_on_of_nodup_map hnodup ha2 hb (le_antisymm hab hba)

/-- A list that is strictly ascending by source, each set with its mirrors
ascending by host, goes through `mergeMirrorSets` unchanged. -/
theorem mergeMirrorSets_of_sorted (ro : RangeOrder) (R : List mirrorSet)
    (hR : R.Pairwise (fun a b => a.source < b.source))
    (hmirrors : ∀ S ∈ R, S.mirrors.Pairwise (fun a b => a.host ≤ b.host)) :
    mergeMirrorSets ro R = R := by
  have hnodup : (R.map mirrorSet.source).Nodup := by
    have h2 : (R.map mirrorSet.source).Pairwise (· < ·) := List.pairwise_map.mpr hR
    exact h2.imp (fun hab => ne_of_lt hab)
  have hvalues : mapValues (uniqueMirrorSets ro R) = R := by
    rw [uniqueMirrorSets_of_nodup ro _ hnodup]
    unfold mapValues
    rw [List.map_map]
    conv => rhs; rw [← List.map_id R]
    rfl
  unfold mergeMirrorSets
  simp only [hvalues]
  exact sortMirrorSets_of_perm_sorted _ _ (ro.mirrorSets_perm _) hR hmirrors

/-- C22: `mergeMirrorSets` is idempotent: merging its output again gives the same
sets in the same order, each with the same mirrors in the same order and the same
policy, whatever order `range` takes in either call. -/
theorem mergeMirrorSets_idempotent (ro ro2 : RangeOrder) (xs : List mirrorSet) :
    mergeMirrorSets ro2 (mergeMirrorSets ro xs) = mergeMirrorSets ro xs :=
  mergeMirrorSets_of_sorted ro2 _ (mergeMirrorSets_sorted ro xs)
    (mergeMirrorSets_mirrors_sorted ro xs)

end Registries

namespace Metrics

/-! ## `isEndpointsValid` -/

theorem nodeFound_iff (nodeName : String) (addresses : List EndpointAddress) :
    nodeFound nodeName addresses = true ↔
      ∃ address ∈ addresses, ∃ targetRef : ObjectReference,
        address.TargetRef = some targetRef ∧ targetRef.Kind = "Node" ∧
          targetRef.Name = nodeName := by
  induction addresses with
  | nil => simp [nodeFound]
  | cons address rest ih =>
    simp only [nodeFound, List.mem_cons, exists_eq_or_imp]
    cases hT : address.TargetRef with
    | none => simp [ih]
    | some targetRef =>
      simp only [Option.some.injEq, exists_eq_left']
      by_cases hk : targetRef.Kind = "Node"
      · by_cases hn : targetRef.Name = nodeName
        · simp [hk, hn]
        · simp [hk, hn, ih]
      · simp [hk, ih]

theorem allNodesFound_iff (addresses : List EndpointAddress) (nodes : List Node) :
    allNodesFound addresses nodes = true ↔
      ∀ node ∈ nodes, nodeFound node.Name addresses = true := by
  induction nodes with
  | nil => simp [allNodesFound]
  | cons node rest ih =>
    simp only [allNodesFound, List.mem_cons, forall_eq_or_imp]
    cases hf : nodeFound node.Name addresses with
    | false => simp
    | true => simp [ih]

/-- When `isEndpointsValid` returns `true`: there is a first subset, it has as many
addresses as there are nodes, and every node is named by an address of it whose
`TargetRef` is present and of kind `Node`. -/
theorem isEndpointsValid_true_iff (nodes : NodeList) (endpoints : Endpoints) :
    isEndpointsValid nodes endpoints = true ↔
      ∃ first rest, endpoints.Subsets = first :: rest ∧
        nodes.Items.length = first.Addresses.length ∧
        ∀ node ∈ nodes.Items, ∃ address ∈ first.Addresses,
          ∃ targetRef : ObjectReference, address.TargetRef = some targetRef ∧
            targetRef.Kind = "Node" ∧ targetRef.Name = node.Name := by
  unfold isEndpointsValid
  cases hS : endpoints.Subsets with
  | nil => simp
  | cons first rest =>
    dsimp only
    by_cases hlen : nodes.Items.length = first.Addresses.length
    · rw [if_neg (not_not.mpr hlen), allNodesFound_iff]
      constructor
      · intro h
        exact ⟨first, rest, rfl, hlen, fun node hnode =>
          (nodeFound_iff node.Name first.Addresses).mp (h node hnode)⟩
      · rintro ⟨first2, rest2, heq, _, h⟩ node hnode
        obtain ⟨rfl, _⟩ := List.cons.inj heq
        exact (nodeFound_iff node.Name first.Addresses).mpr (h node hnode)
    · rw [if_pos hlen]
      simp only [Bool.false_eq_true, false_iff]
      rintro ⟨first2, rest2, heq, hl, _⟩
      obtain ⟨rfl, _⟩ := List.cons.inj heq
      exact hlen hl

/-- C17 as stated fails: the one node `n1` has its entry in the first subset, which
also holds an address left from a node `n2`, and `isEndpointsValid` returns
`false`. -/
theorem isEndpointsValid_false_with_entries_counterexample :
    (∀ node ∈ (⟨[⟨"n1", ⟨[]⟩⟩]⟩ : NodeList).Items,
      ∃ address ∈ ([⟨"10.0.0.1", "", none, some ⟨"Node", "n1"⟩⟩,
          ⟨"10.0.0.2", "", none, some ⟨"Node", "n2"⟩⟩] : List EndpointAddress),
        ∃ targetRef : ObjectReference, address.TargetRef = some targetRef ∧
          targetRef.Kind = "Node" ∧ targetRef.Name = node.Name) ∧
    isEndpointsValid ⟨[⟨"n1", ⟨[]⟩⟩]⟩
      ⟨[⟨[⟨"10.0.0.1", "", none, some ⟨"Node", "n1"⟩⟩,
          ⟨"10.0.0.2", "", none, some ⟨"Node", "n2"⟩⟩], []⟩]⟩ = false := by
  refine ⟨?_, by decide⟩
  intro node hnode
  simp only [List.mem_singleton] at hnode
  subst hnode
  exact ⟨⟨"10.0.0.1", "", none, some ⟨"Node", "n1"⟩⟩, by simp, ⟨"Node", "n1"⟩, rfl, rfl, rfl⟩

/-- C17 as amended: `isEndpointsValid` returns `true` exactly when the Endpoints
object has a first subset with as many addresses as there are nodes and with an
entry for every node; so it returns `false` when a node has no entry, and also
when the number of addresses is not the number of nodes. -/
theorem isEndpointsValid_iff_count_and_entries (nodes : NodeList) (endpoints : Endpoints) :
    (isEndpointsValid nodes endpoints = true ↔
      ∃ first rest, endpoints.Subsets = first :: rest ∧
        nodes.Items.length = first.Addresses.length ∧
        ∀ node ∈ nodes.Items, ∃ address ∈ first.Addresses,
          ∃ targetRef : ObjectReference, address.TargetRef = some targetRef ∧
            targetRef.Kind = "Node" ∧ targetRef.Name = node.Name) ∧
    ((∃ node ∈ nodes.Items, ∀ first rest, endpoints.Subsets = first :: rest →
        ¬ ∃ address ∈ first.Addresses, ∃ targetRef : ObjectReference,
          address.TargetRef = some targetRef ∧ targetRef.Kind = "Node" ∧
            targetRef.Name = node.Name) →
      isEndpointsValid nodes endpoints = false) := by
  refine ⟨isEndpointsValid_true_iff nodes endpoints, ?_⟩
  rintro ⟨node, hnode, hno⟩
  cases hv : isEndpointsValid nodes endpoints with
  | false => rfl
  | true =>
    obtain ⟨first, rest, hS, _, hall⟩ := (isEndpointsValid_true_iff nodes endpoints).mp hv
    exact absurd (hall node hnode) (hno first rest hS)

/-- C17 as amended, at two nodes and the two addresses that name them, and at the
same nodes with the address of the second one missing its `TargetRef`. -/
theorem isEndpointsValid_iff_count_and_entries_witness :
    isEndpointsValid ⟨[⟨"n1", ⟨[]⟩⟩, ⟨"n2", ⟨[]⟩⟩]⟩
      ⟨[⟨[⟨"10.0.0.2", "", none, some ⟨"Node", "n2"⟩⟩,
          ⟨"10.0.0.1", "", none, some ⟨"Node", "n1"⟩⟩], []⟩]⟩ = true ∧
    isEndpointsValid ⟨[⟨"n1", ⟨[]⟩⟩, ⟨"n2", ⟨[]⟩⟩]⟩
      ⟨[⟨[⟨"10.0.0.2", "", none, none⟩,
          ⟨"10.0.0.1", "", none, some ⟨"Node", "n1"⟩⟩], []⟩]⟩ = false := by
  refine ⟨?_, ?_⟩
  · refine (isEndpointsValid_iff_count_and_entries _ _).1.mpr ⟨_, _, rfl, rfl, ?_⟩
    intro node hnode
    simp only [List.mem_cons, List.mem_singleton, List.not_mem_nil, or_false] at hnode
    rcases hnode with rfl | rfl
    · exact ⟨⟨"10.0.0.1", "", none, some ⟨"Node", "n1"⟩⟩, by simp, ⟨"Node", "n1"⟩,
        rfl, rfl, rfl⟩
    · exact ⟨⟨"10.0.0.2", "", none, some ⟨"Node", "n2"⟩⟩, by simp, ⟨"Node", "n2"⟩,
        rfl, rfl, rfl⟩
  · refine (isEndpointsValid_iff_count_and_entries _ _).2 ⟨⟨"n2", ⟨[]⟩⟩, by simp, ?_⟩
    intro first rest hS
    simp only [List.cons.injEq] at hS
    obtain ⟨rfl, _⟩ := hS
    rintro ⟨address, haddr, targetRef, hT, _, hname⟩
    simp only [List.mem_cons, List.mem_singleton, List.not_mem_nil, or_false] at haddr
    rcases haddr with rfl | rfl
    · simp at hT
    · simp only [Option.some.injEq] at hT
      subst hT
      simp at hname

/-! ## `getNodeEndpointAddresses` and the synced Endpoints object -/

/-- What one node adds: the endpoint address made from its first address of type
`InternalIP` with a non-empty value, if it has one. -/
theorem appendNodeAddress_eq (node : Node) (acc : List EndpointAddress)
    (addresses : List NodeAddress) :
    appendNodeAddress node acc addresses =
      acc ++ ((addresses.find? (fun a => decide (a.Kind = "InternalIP" ∧ a.Address ≠ ""))).map
        (fun a => ({ IP := a.Address, Hostname := "", NodeName := none,
                     TargetRef := some { Kind := "Node", Name := node.Name } } :
          EndpointAddress))).toList := by
  induction addresses with
  | nil => simp [appendNodeAddress]
  | cons a rest ih =>
    simp only [appendNodeAddress, List.find?_cons]
    by_cases h : a.Kind = "InternalIP" ∧ a.Address ≠ ""
    · rw [if_pos h]
      simp [h]
    · rw [if_neg h, ih]
      simp [h]

theorem foldl_appendNodeAddress (items : List Node) (acc : List EndpointAddress) :
    items.foldl (fun nodeIPAddress node =>
        appendNodeAddress node nodeIPAddress node.Status.Addresses) acc =
      acc ++ items.flatMap (fun node =>
        ((node.Status.Addresses.find?
            (fun a => decide (a.Kind = "InternalIP" ∧ a.Address ≠ ""))).map
          (fun a => ({ IP := a.Address, Hostname := "", NodeName := none,
                       TargetRef := some { Kind := "Node", Name := node.Name } } :
            EndpointAddress))).toList) := by
  induction items generalizing acc with
  | nil => simp
  | cons node rest ih =>
    simp only [List.foldl_cons, List.flatMap_cons]
    rw [ih, appendNodeAddress_eq, List.append_assoc]

/-- When every node has an address of type `InternalIP` with a non-empty value,
`getNodeEndpointAddresses` yields one address per node, in node order, made from
the first such address of the node. -/
theorem getNodeEndpointAddresses_pairs (items : List Node)
    (hip : ∀ node ∈ items, ∃ a ∈ node.Status.Addresses,
      a.Kind = "InternalIP" ∧ a.Address ≠ "") :
    List.Forall₂
      (fun node address =>
        ∃ a, node.Status.Addresses.find?
            (fun a => decide (a.Kind = "InternalIP" ∧ a.Address ≠ "")) = some a ∧
          address = ({ IP := a.Address, Hostname := "", NodeName := none,
                       TargetRef := some { Kind := "Node", Name := node.Name } } :
            EndpointAddress))
      items (getNodeEndpointAddresses ⟨items⟩) := by
  unfold getNodeEndpointAddresses
  rw [foldl_appendNodeAddress, List.nil_append]
  induction items with
  | nil => exact List.Forall₂.nil
  | cons node rest ih =>
    obtain ⟨a0, ha0, hk⟩ := hip node (List.mem_cons_self _ _)
    cases hf : node.Status.Addresses.find?
        (fun a => decide (a.Kind = "InternalIP" ∧ a.Address ≠ "")) with
    | none =>
      rw [List.find?_eq_none] at hf
      exact absurd (by simpa using hk) (hf a0 ha0)
    | some a =>
      simp only [List.flatMap_cons, hf, Option.map_some', Option.toList_some,
        List.singleton_append]
      exact List.Forall₂.cons ⟨a, hf, rfl⟩
        (ih (fun n hn => hip n (List.mem_cons_of_mem _ hn)))

theorem forall2_exists_right {α β : Type} (R : α → β → Prop) (l1 : List α) (l2 : List β)
    (h : List.Forall₂ R l1 l2) : ∀ a ∈ l1, ∃ b ∈ l2, R a b := by
  induction h with
  | nil => simp
  | cons hab _ ih =>
    intro x hx
    rcases List.mem_cons.mp hx with rfl | hx
    · exact ⟨_, List.mem_cons_self _ _, hab⟩
    · obtain ⟨b, hb, hr⟩ := ih x hx
      exact ⟨b, List.mem_cons_of_mem _ hb, hr⟩

/-- C23: for a non-empty node list in which every node has an address of type
`InternalIP` with a non-empty value, `getNodeEndpointAddresses` yields one address
per node, in node order, with the first such address of the node as IP and a
`TargetRef` of kind `Node` that names the node; and the Endpoints object whose
subsets `syncMetricsEndpoint` writes from these addresses is valid for the nodes. -/
theorem syncMetricsEndpoint_reaches_valid (nodes : NodeList) (endpoints : Endpoints)
    (hne : nodes.Items ≠ [])
    (hip : ∀ node ∈ nodes.Items, ∃ a ∈ node.Status.Addresses,
      a.Kind = "InternalIP" ∧ a.Address ≠ "") :
    isEndpointsValid nodes
        (syncMetricsEndpoint endpoints (getNodeEndpointAddresses nodes)) = true ∧
    (syncMetricsEndpoint endpoints (getNodeEndpointAddresses nodes)).Subsets =
      [{ Addresses := getNodeEndpointAddresses nodes,
         Ports := [{ Name := "metrics", Port := 9182, Protocol := "TCP" }] }] ∧
    List.Forall₂
      (fun node address =>
        ∃ a, node.Status.Addresses.find?
            (fun a => decide (a.Kind = "InternalIP" ∧ a.Address ≠ "")) = some a ∧
          address = ({ IP := a.Address, Hostname := "", NodeName := none,
                       TargetRef := some { Kind := "Node", Name := node.Name } } :
            EndpointAddress))
      nodes.Items (getNodeEndpointAddresses nodes) := by
  have hall := getNodeEndpointAddresses_pairs nodes.Items hip
  have hlen := hall.length_eq
  have hnonempty : getNodeEndpointAddresses nodes ≠ [] := by
    intro h
    have h0 : (getNodeEndpointAddresses nodes).length = 0 := by rw [h]; rfl
    exact hne (List.length_eq_zero.mp (hlen.trans h0))
  have hsub : (syncMetricsEndpoint endpoints (getNodeEndpointAddresses nodes)).Subsets =
      [{ Addresses := getNodeEndpointAddresses nodes,
         Ports := [{ Name := "metrics", Port := 9182, Protocol := "TCP" }] }] := by
    unfold syncMetricsEndpoint syncSubsets
    simp only [hnonempty, ne_eq, not_false_eq_true, if_true]
    rfl
  refine ⟨?_, hsub, hall⟩
  rw [isEndpointsValid_true_iff]
  refine ⟨_, _, hsub, hlen, ?_⟩
  intro node hnode
  obtain ⟨address, haddr, a, _, heq⟩ := forall2_exists_right _ _ _ hall node hnode
  exact ⟨address, haddr, ⟨"Node", node.Name⟩, by rw [heq], rfl, rfl⟩

/-- C23 at two nodes: the first has a host name, an `InternalIP` without value and
two with, the second one `InternalIP`. -/
theorem syncMetricsEndpoint_reaches_valid_witness :
    getNodeEndpointAddresses
        ⟨[⟨"n1", ⟨[⟨"Hostname", "n1"⟩, ⟨"InternalIP", ""⟩, ⟨"InternalIP", "10.0.0.1"⟩,
                    ⟨"InternalIP", "10.0.0.9"⟩]⟩⟩,
          ⟨"n2", ⟨[⟨"InternalIP", "10.0.0.2"⟩]⟩⟩]⟩ =
      [⟨"10.0.0.1", "", none, some ⟨"Node", "n1"⟩⟩,
       ⟨"10.0.0.2", "", none, some ⟨"Node", "n2"⟩⟩] ∧
    isEndpointsValid
        ⟨[⟨"n1", ⟨[⟨"Hostname", "n1"⟩, ⟨"InternalIP", ""⟩, ⟨"InternalIP", "10.0.0.1"⟩,
                    ⟨"InternalIP", "10.0.0.9"⟩]⟩⟩,
          ⟨"n2", ⟨[⟨"InternalIP", "10.0.0.2"⟩]⟩⟩]⟩
        (syncMetricsEndpoint ⟨[]⟩
          (getNodeEndpointAddresses
            ⟨[⟨"n1", ⟨[⟨"Hostname", "n1"⟩, ⟨"InternalIP", ""⟩, ⟨"InternalIP", "10.0.0.1"⟩,
                        ⟨"InternalIP", "10.0.0.9"⟩]⟩⟩,
              ⟨"n2", ⟨[⟨"InternalIP", "10.0.0.2"⟩]⟩⟩]⟩)) = true :=
  ⟨by decide,
   (syncMetricsEndpoint_reaches_valid
      ⟨[⟨"n1", ⟨[⟨"Hostname", "n1"⟩, ⟨"InternalIP", ""⟩, ⟨"InternalIP", "10.0.0.1"⟩,
                  ⟨"InternalIP", "10.0.0.9"⟩]⟩⟩,
        ⟨"n2", ⟨[⟨"InternalIP", "10.0.0.2"⟩]⟩⟩]⟩
      ⟨[]⟩ (by decide) (by decide)).1⟩

end Metrics
